import Mathlib

/-!
Verification of the twitchbot core against its specification.

Rust strings are modelled as lists of Unicode scalar values (List Char);
Instant and Duration are modelled as Nat (an abstract clock in
milliseconds); fallible Rust code returns Except.  Every definition below
is a shallow embedding of the corresponding function in the repository
sources, with the source location given in its doc comment.
-/

set_option maxRecDepth 4000

abbrev Str := List Char

/-- Splits a list at the first occurrence of a character: result (x, some y)
means l = x ++ c :: y with c not in x; (l, none) means c does not occur.
This models one step of Rust str::find plus slicing, and splitn(2, c). -/
def break1 (c : Char) : Str → Str × Option Str
  | [] => ([], none)
  | a :: t =>
    if a = c then ([], some t)
    else
      match break1 c t with
      | (x, y) => (a :: x, y)

/-- Rust str::split(c): n separators produce n+1 (possibly empty) pieces. -/
def splitCh (c : Char) : Str → List Str
  | [] => [[]]
  | a :: t =>
    if a = c then [] :: splitCh c t
    else
      match splitCh c t with
      | [] => [[a]]
      | h :: r => (a :: h) :: r

/-- Rust str::split_terminator(c): like split, but a final empty piece
produced by a trailing separator is omitted (and the empty string yields
no pieces at all). -/
def splitTerminator (c : Char) (l : Str) : List Str :=
  let p := splitCh c l
  if p.getLast? = some [] then p.dropLast else p

/-- Index of the first occurrence of the two-character sequence c1 c2,
modelling Rust str::find of a two-byte pattern such as " :" or "]:". -/
def findPair (c1 c2 : Char) : Str → Option Nat
  | a :: b :: t =>
    if a = c1 ∧ b = c2 then some 0
    else (findPair c1 c2 (b :: t)).map (· + 1)
  | _ => none

/-- Index of the first occurrence of a single character. -/
def findIdxCh (c : Char) : Str → Option Nat
  | [] => none
  | a :: t => if a = c then some 0 else (findIdxCh c t).map (· + 1)

/-- Byte-wise (equivalently code-point-wise) strict order on strings, the
order in which a Rust BTreeMap with str keys iterates. -/
def strLt : Str → Str → Bool
  | [], [] => false
  | [], _ :: _ => true
  | _ :: _, [] => false
  | a :: x, b :: y =>
    if a < b then true
    else if b < a then false
    else strLt x y

/-- Joins pieces with a separator character (Rust slice::join / the
serializer's interleaving of ";" and " "). -/
def joinSep (c : Char) : List Str → Str
  | [] => []
  | [x] => x
  | x :: y :: r => x ++ c :: joinSep c (y :: r)

/-- IRC tags: the BTreeMap of src/src/irc.rs:6 modelled as an association
list kept strictly sorted by key. -/
abbrev Tags := List (Str × Option Str)

/-- BTreeMap::insert on the sorted-association-list model: keeps the list
sorted and replaces the value of an existing key. -/
def insertTag (k : Str) (v : Option Str) : Tags → Tags
  | [] => [(k, v)]
  | (k', v') :: t =>
    if strLt k k' then (k, v) :: (k', v') :: t
    else if k = k' then (k, v) :: t
    else (k', v') :: insertTag k v t

/-- Prefix part of an IRC message (enum Prefix, src/src/irc.rs:11-23).
Named Pfx here; the field and constructor names follow the source. -/
inductive Pfx where
  | full (nick user host : Str)
  | userHost (user host : Str)
  | host (h : Str)
  | none
deriving DecidableEq

/-- Command part of an IRC message (struct Command, src/src/irc.rs:46-49). -/
structure Command where
  name : Str
  args : List Str
deriving DecidableEq

/-- struct Message, src/src/irc.rs:78-83 (field pfx embeds the source
field named after the RFC1459 prefix). -/
structure Message where
  tags : Tags
  pfx : Pfx
  command : Command
  trailing : Option Str
deriving DecidableEq

/-- parse_tags (src/src/irc.rs:88-100): split the tag section on ";",
skip empty pairs, split each pair once on "=" and insert into the map. -/
def parseTags (raw : Str) : Tags :=
  (splitCh ';' raw).foldl
    (fun m pair =>
      if pair = [] then m
      else
        match break1 '=' pair with
        | (k, v) => insertTag k v m)
    []

/-- parse_prefix (src/src/irc.rs:102-120): rsplitn(2, c) — splitting at the
last occurrence — is modelled as break1 on the reversed string. -/
def parsePrefix (p : Str) : Pfx :=
  match break1 '@' p.reverse with
  | (_, Option.none) => Pfx.host p
  | (hrev, some lrev) =>
    match break1 '!' lrev with
    | (_, Option.none) => Pfx.userHost lrev.reverse hrev.reverse
    | (urev, some nrev) => Pfx.full nrev.reverse urev.reverse hrev.reverse

/-- Tag-section stage of Message::parse (src/src/irc.rs:125-132): if the
line starts with an at sign, the text up to the first space is the tag
section (error if there is no space); returns the tags and the rest. -/
def parseStep1 : Str → Except String (Tags × Str)
  | [] => .error ("Unexpected end of input")
  | c :: rest =>
    if c = '@' then
      match break1 ' ' rest with
      | (_, Option.none) => .error ("Unexpected end of input")
      | (pre, some r) => .ok (parseTags pre, r)
    else .ok ([], c :: rest)

/-- Prefix stage of Message::parse (src/src/irc.rs:134-141). -/
def parseStep2 : Str → Except String (Pfx × Str)
  | [] => .error ("Unexpected end of input")
  | c :: rest =>
    if c = ':' then
      match break1 ' ' rest with
      | (_, Option.none) => .error ("Unexpected end of input")
      | (pre, some r) => .ok (parsePrefix pre, r)
    else .ok (Pfx.none, c :: rest)

/-- Trailing stage of Message::parse (src/src/irc.rs:143-155): the span
before the first " :" is the command section, everything after it the
trailing. -/
def splitTrailing (raw : Str) : Str × Option Str :=
  match findPair ' ' ':' raw with
  | some i => (raw.take i, some (raw.drop (i + 2)))
  | Option.none => (raw, Option.none)

/-- Command stage of Message::parse (src/src/irc.rs:157-158): first token
is the command name, the remaining nonempty tokens are the arguments. -/
def parseCommand (raw : Str) : Except String Command :=
  match splitCh ' ' raw with
  | [] => .error ("Command expected")
  | name :: rest => .ok { name := name, args := rest.filter (· ≠ []) }

/-- Message::parse (src/src/irc.rs:87-161). -/
def Message.parse (input : Str) : Except String Message :=
  match parseStep1 input with
  | .error e => .error e
  | .ok (tags, raw1) =>
    match parseStep2 raw1 with
    | .error e => .error e
    | .ok (pfx, raw2) =>
      match parseCommand (splitTrailing raw2).1 with
      | .error e => .error e
      | .ok cmd => .ok (Message.mk tags pfx cmd (splitTrailing raw2).2)

/-- Display for Prefix (src/src/irc.rs:31-40), without the following
space (the Message serializer appends it). -/
def Pfx.render : Pfx → Str
  | .full n u h => ':' :: (n ++ '!' :: u ++ '@' :: h)
  | .userHost u h => ':' :: (u ++ '@' :: h)
  | .host h => ':' :: h
  | .none => []

/-- Display for Command (src/src/irc.rs:60-68). -/
def Command.render (c : Command) : Str :=
  if c.args = [] then c.name else c.name ++ ' ' :: joinSep ' ' c.args

/-- One key=value tag pair as emitted by Display for Message. -/
def renderTagPair : Str × Option Str → Str
  | (k, some v) => k ++ '=' :: v
  | (k, Option.none) => k

/-- Display for Message (src/src/irc.rs:197-231): tags in map (sorted)
order joined by ";", then prefix, command, and " :" plus trailing. -/
def Message.render (m : Message) : Str :=
  (if m.tags = [] then [] else '@' :: joinSep ';' (m.tags.map renderTagPair) ++ [' '])
  ++ (match m.pfx with
      | .none => []
      | p => p.render ++ [' '])
  ++ m.command.render
  ++ (match m.trailing with
      | some t => ' ' :: ':' :: t
      | Option.none => [])

/-- Message::tag_value (src/src/irc.rs:163-165). -/
def Message.tagValue (m : Message) (key : Str) : Option Str :=
  match m.tags.lookup key with
  | Option.none => Option.none
  | some v => v

/-- Message::first_arg_as_channel_name (src/src/irc.rs:167-169). -/
def Message.firstArgAsChannelName (m : Message) : Option Str :=
  m.command.args.head?.map (fun s => s.dropWhile (· = '#'))

/-! ### Basic properties of the string utilities -/

theorem break1_none {c : Char} {l x : Str} (h : break1 c l = (x, Option.none)) :
    x = l ∧ c ∉ l := by
  induction l generalizing x with
  | nil => simp [break1] at h; simp [h]
  | cons a t ih =>
    by_cases hac : a = c
    · simp [break1, hac] at h
    · simp only [break1, if_neg hac] at h
      cases hb : break1 c t with
      | mk x' y' =>
        rw [hb] at h
        cases y' with
        | none =>
          obtain ⟨h1, h2⟩ := ih hb
          cases h
          subst h1
          simp only [List.mem_cons, not_or]
          exact ⟨trivial, fun hc => hac hc.symm, h2⟩
        | some _ => simp at h

theorem break1_some {c : Char} {l x y : Str} (h : break1 c l = (x, some y)) :
    l = x ++ c :: y ∧ c ∉ x := by
  induction l generalizing x y with
  | nil => simp [break1] at h
  | cons a t ih =>
    by_cases hac : a = c
    · subst hac
      simp [break1] at h
      obtain ⟨h1, h2⟩ := h
      subst h1 h2
      simp
    · simp only [break1, if_neg hac] at h
      cases hb : break1 c t with
      | mk x' y' =>
        rw [hb] at h
        cases y' with
        | none => simp at h
        | some y'' =>
          simp at h
          obtain ⟨h1, h2⟩ := h
          subst h2
          obtain ⟨ht, hm⟩ := ih hb
          subst h1
          constructor
          · simp [ht]
          · simp only [List.mem_cons, not_or]
            exact ⟨fun hc => hac hc.symm, hm⟩

theorem break1_of_not_mem {c : Char} {l : Str} (h : c ∉ l) : break1 c l = (l, Option.none) := by
  induction l with
  | nil => simp [break1]
  | cons a t ih =>
    simp at h
    have ha : a ≠ c := fun hh => h.1 hh.symm
    simp [break1, ha, ih h.2]

theorem break1_append {c : Char} {x y : Str} (h : c ∉ x) :
    break1 c (x ++ c :: y) = (x, some y) := by
  induction x with
  | nil => simp [break1]
  | cons a t ih =>
    simp at h
    have ha : a ≠ c := fun hh => h.1 hh.symm
    simp [break1, ha, ih h.2]

theorem splitCh_ne_nil (c : Char) (l : Str) : splitCh c l ≠ [] := by
  cases l with
  | nil => simp [splitCh]
  | cons a t =>
    simp only [splitCh]
    by_cases hac : a = c
    · simp [hac]
    · simp only [if_neg hac]
      cases h : splitCh c t <;> simp

theorem splitCh_not_mem {c : Char} {l : Str} : ∀ p ∈ splitCh c l, c ∉ p := by
  induction l with
  | nil => simp [splitCh]
  | cons a t ih =>
    intro p hp
    by_cases hac : a = c
    · simp only [splitCh, if_pos hac, List.mem_cons] at hp
      rcases hp with h | h
      · simp [h]
      · exact ih p h
    · simp only [splitCh, if_neg hac] at hp
      cases hs : splitCh c t with
      | nil => exact absurd hs (splitCh_ne_nil c t)
      | cons h0 r =>
        rw [hs] at hp
        simp only [List.mem_cons] at hp
        rcases hp with h | h
        · subst h
          intro hmem
          simp at hmem
          rcases hmem with h | h
          · exact hac h.symm
          · exact ih h0 (by simp [hs]) h
        · exact ih p (by simp [hs, h])

theorem splitCh_subset {c : Char} {l : Str} : ∀ p ∈ splitCh c l, ∀ a ∈ p, a ∈ l := by
  induction l with
  | nil => simp [splitCh]
  | cons a t ih =>
    intro p hp b hb
    by_cases hac : a = c
    · simp only [splitCh, if_pos hac, List.mem_cons] at hp
      rcases hp with h | h
      · subst h; simp at hb
      · exact List.mem_cons_of_mem a (ih p h b hb)
    · simp only [splitCh, if_neg hac] at hp
      cases hs : splitCh c t with
      | nil => exact absurd hs (splitCh_ne_nil c t)
      | cons h0 r =>
        rw [hs] at hp
        simp only [List.mem_cons] at hp
        rcases hp with h | h
        · subst h
          simp at hb
          rcases hb with h | h
          · simp [h]
          · exact List.mem_cons_of_mem a (ih h0 (by simp [hs]) b h)
        · exact List.mem_cons_of_mem a (ih p (by simp [hs, h]) b hb)


theorem joinSep_cons (c : Char) (x : Str) (y : Str) (r : List Str) :
    joinSep c (x :: y :: r) = x ++ c :: joinSep c (y :: r) := rfl

theorem splitCh_singleton {c : Char} {x : Str} (hx : c ∉ x) : splitCh c x = [x] := by
  induction x with
  | nil => simp [splitCh]
  | cons a t ih =>
    simp at hx
    have ha : a ≠ c := fun hh => hx.1 hh.symm
    simp only [splitCh, if_neg ha, ih hx.2]

theorem splitCh_append_sep {c : Char} {x : Str} (hx : c ∉ x) (y : Str) :
    splitCh c (x ++ c :: y) = x :: splitCh c y := by
  induction x with
  | nil => simp [splitCh]
  | cons a t ih =>
    simp at hx
    have ha : a ≠ c := fun hh => hx.1 hh.symm
    simp only [List.cons_append, splitCh, if_neg ha]
    rw [List.append_eq, ih hx.2]

theorem splitCh_joinSep {c : Char} {pieces : List Str} (hne : pieces ≠ [])
    (hmem : ∀ p ∈ pieces, c ∉ p) : splitCh c (joinSep c pieces) = pieces := by
  induction pieces with
  | nil => exact absurd rfl hne
  | cons x r ih =>
    cases r with
    | nil => exact splitCh_singleton (hmem x (by simp))
    | cons y r' =>
      rw [joinSep_cons, splitCh_append_sep (hmem x (by simp))]
      rw [ih (by simp) (fun p hp => hmem p (by simp [hp]))]

theorem findPair_cons_none {c1 c2 a : Char} {t : Str}
    (hhead : ∀ b, t.head? = some b → ¬(a = c1 ∧ b = c2))
    (ht : findPair c1 c2 t = Option.none) : findPair c1 c2 (a :: t) = Option.none := by
  cases t with
  | nil => rfl
  | cons b t' =>
    have : ¬(a = c1 ∧ b = c2) := hhead b rfl
    simp only [findPair, if_neg this, ht, Option.map_none']

theorem findPair_append {c1 c2 : Char} (hne : c1 ≠ c2) {x : Str}
    (hx : findPair c1 c2 x = Option.none) (y : Str) :
    findPair c1 c2 (x ++ c1 :: c2 :: y) = some x.length := by
  induction x with
  | nil => simp [findPair]
  | cons a t ih =>
    cases t with
    | nil =>
      have hac : ¬(a = c1 ∧ c1 = c2) := fun hh => hne hh.2
      simp only [List.cons_append, List.nil_append, findPair, if_neg hac]
      simp [findPair]
    | cons b t' =>
      simp only [findPair] at hx
      by_cases hab : a = c1 ∧ b = c2
      · simp [if_pos hab] at hx
      · simp only [if_neg hab, Option.map_eq_none'] at hx
        have := ih hx
        simp only [List.cons_append] at this ⊢
        rw [findPair]
        · rw [if_neg hab, this]
          simp

theorem findPair_some_decomp {c1 c2 : Char} {l : Str} {i : Nat}
    (h : findPair c1 c2 l = some i) :
    l = l.take i ++ c1 :: c2 :: l.drop (i + 2) ∧
      findPair c1 c2 (l.take i) = Option.none ∧ (l.take i).length = i := by
  induction l generalizing i with
  | nil => simp [findPair] at h
  | cons a t ih =>
    cases t with
    | nil => simp [findPair] at h
    | cons b t' =>
      by_cases hab : a = c1 ∧ b = c2
      · simp only [findPair, if_pos hab] at h
        cases h
        obtain ⟨h1, h2⟩ := hab
        subst h1 h2
        simp [findPair]
      · simp only [findPair, if_neg hab, Option.map_eq_some'] at h
        obtain ⟨j, hj, hij⟩ := h
        subst hij
        obtain ⟨hd, hn, hl⟩ := ih hj
        have htake : (a :: b :: t').take (j + 1) = a :: (b :: t').take j := rfl
        have hdrop : (a :: b :: t').drop (j + 1 + 2) = (b :: t').drop (j + 2) := rfl
        refine ⟨?_, ?_, ?_⟩
        · rw [htake, hdrop]
          exact congrArg (a :: ·) hd
        · rw [htake]
          refine findPair_cons_none ?_ hn
          intro b' hb'
          cases j with
          | zero => simp at hb'
          | succ jj =>
            have : (b :: t').take (jj + 1) = b :: t'.take jj := rfl
            rw [this] at hb'
            simp at hb'
            subst hb'
            exact hab
        · rw [htake]
          simp only [List.length_cons, hl]

/-! ### Order facts for the sorted tag map -/

theorem strLt_irrefl (a : Str) : strLt a a = false := by
  induction a with
  | nil => rfl
  | cons x xs ih => simp [strLt, ih]

theorem strLt_asymm {a b : Str} (h : strLt a b = true) : strLt b a = false := by
  induction a generalizing b with
  | nil =>
    cases b with
    | nil => simp [strLt] at h
    | cons y ys => rfl
  | cons x xs ih =>
    cases b with
    | nil => simp [strLt] at h
    | cons y ys =>
      simp only [strLt] at h ⊢
      by_cases hxy : x < y
      · simp [if_neg (lt_asymm hxy), if_pos hxy]
      · rw [if_neg hxy] at h
        by_cases hyx : y < x
        · rw [if_pos hyx] at h; exact absurd h (by simp)
        · rw [if_neg hyx] at h
          simp [if_neg hxy, if_neg hyx, ih h]

theorem strLt_connex {a b : Str} (h1 : strLt a b = false) (h2 : strLt b a = false) : a = b := by
  induction a generalizing b with
  | nil =>
    cases b with
    | nil => rfl
    | cons y ys => simp [strLt] at h1
  | cons x xs ih =>
    cases b with
    | nil => simp [strLt] at h2
    | cons y ys =>
      simp only [strLt] at h1 h2
      by_cases hxy : x < y
      · rw [if_pos hxy] at h1; exact absurd h1 (by simp)
      · by_cases hyx : y < x
        · rw [if_pos hyx] at h2; exact absurd h2 (by simp)
        · rw [if_neg hxy, if_neg hyx] at h1
          rw [if_neg hyx, if_neg hxy] at h2
          have hx : x = y := le_antisymm (not_lt.mp hyx) (not_lt.mp hxy)
          rw [hx, ih h1 h2]

theorem strLt_trans {a b c : Str} (h1 : strLt a b = true) (h2 : strLt b c = true) :
    strLt a c = true := by
  induction a generalizing b c with
  | nil =>
    cases b with
    | nil => simp [strLt] at h1
    | cons y ys =>
      cases c with
      | nil => simp [strLt] at h2
      | cons z zs => rfl
  | cons x xs ih =>
    cases b with
    | nil => simp [strLt] at h1
    | cons y ys =>
      cases c with
      | nil => simp [strLt] at h2
      | cons z zs =>
        simp only [strLt] at h1 h2 ⊢
        by_cases hxy : x < y
        · by_cases hyz : y < z
          · simp [lt_trans hxy hyz]
          · by_cases hzy : z < y
            · rw [if_neg hyz, if_pos hzy] at h2; exact absurd h2 (by simp)
            · have : y = z := le_antisymm (not_lt.mp hzy) (not_lt.mp hyz)
              subst this
              simp [hxy]
        · by_cases hyx : y < x
          · rw [if_neg hxy, if_pos hyx] at h1; exact absurd h1 (by simp)
          · have hxy' : x = y := le_antisymm (not_lt.mp hyx) (not_lt.mp hxy)
            subst hxy'
            rw [if_neg hxy, if_neg hyx] at h1
            by_cases hyz : x < z
            · simp [hyz]
            · by_cases hzy : z < x
              · rw [if_neg hyz, if_pos hzy] at h2; exact absurd h2 (by simp)
              · have : x = z := le_antisymm (not_lt.mp hzy) (not_lt.mp hyz)
                subst this
                rw [if_neg hyz, if_neg hzy] at h2 ⊢
                exact ih h1 h2

theorem strLt_ne {a b : Str} (h : strLt a b = true) : a ≠ b := by
  intro he
  subst he
  rw [strLt_irrefl] at h
  exact absurd h (by simp)

/-- Sortedness invariant of the BTreeMap model. -/
def tagsSorted (t : Tags) : Prop :=
  t.Pairwise (fun a b => strLt a.1 b.1 = true)

theorem mem_insertTag {k : Str} {v : Option Str} {m : Tags} :
    ∀ p ∈ insertTag k v m, p = (k, v) ∨ p ∈ m := by
  induction m with
  | nil => simp [insertTag]
  | cons q t ih =>
    intro p hp
    simp only [insertTag] at hp
    by_cases h1 : strLt k q.1
    · rw [if_pos h1] at hp
      simp at hp
      rcases hp with h | h | h
      · left; simp [h]
      · right; simp [h]
      · right; simp [h]
    · rw [if_neg h1] at hp
      by_cases h2 : k = q.1
      · rw [if_pos h2] at hp
        simp at hp
        rcases hp with h | h
        · left; simp [h]
        · right; simp [h]
      · rw [if_neg h2] at hp
        simp at hp
        rcases hp with h | h
        · right; simp [h]
        · rcases ih p h with h' | h'
          · left; exact h'
          · right; simp [h']

theorem insertTag_sorted {k : Str} {v : Option Str} {m : Tags} (hs : tagsSorted m) :
    tagsSorted (insertTag k v m) := by
  induction m with
  | nil => simp [insertTag, tagsSorted]
  | cons q t ih =>
    rw [tagsSorted, List.pairwise_cons] at hs
    obtain ⟨hq, ht⟩ := hs
    simp only [insertTag]
    by_cases h1 : strLt k q.1
    · rw [if_pos h1]
      rw [tagsSorted, List.pairwise_cons]
      refine ⟨?_, List.pairwise_cons.mpr ⟨hq, ht⟩⟩
      intro p hp
      simp at hp
      rcases hp with h | h
      · simp [h, h1]
      · exact strLt_trans h1 (hq _ h)
    · rw [if_neg h1]
      by_cases h2 : k = q.1
      · rw [if_pos h2]
        rw [tagsSorted, List.pairwise_cons]
        exact ⟨fun p hp => by rw [h2]; exact hq p hp, ht⟩
      · rw [if_neg h2]
        rw [tagsSorted, List.pairwise_cons]
        refine ⟨?_, ih ht⟩
        intro p hp
        rcases mem_insertTag p hp with h | h
        · subst h
          by_cases h3 : strLt q.1 k
          · simp [h3]
          · exact absurd (strLt_connex (by simpa using h1) (by simpa using h3)) h2
        · exact hq p h

theorem insertTag_append {k : Str} {v : Option Str} {acc : Tags}
    (h : ∀ q ∈ acc, strLt q.1 k = true) : insertTag k v acc = acc ++ [(k, v)] := by
  induction acc with
  | nil => rfl
  | cons q t ih =>
    have hq : strLt q.1 k = true := h q (by simp)
    simp only [insertTag]
    rw [if_neg (by simp [strLt_asymm hq]), if_neg (Ne.symm (strLt_ne hq))]
    rw [ih (fun p hp => h p (by simp [hp]))]
    simp

theorem foldl_insertTag {P acc : Tags} (hs : tagsSorted (acc ++ P)) :
    List.foldl (fun m p => insertTag p.1 p.2 m) acc P = acc ++ P := by
  induction P generalizing acc with
  | nil => simp
  | cons p t ih =>
    have hlt : ∀ q ∈ acc, strLt q.1 p.1 = true := by
      intro q hq
      have := (List.pairwise_append.mp hs).2.2 q hq p (by simp)
      exact this
    simp only [List.foldl_cons]
    rw [insertTag_append hlt]
    have h2 := @ih (acc ++ [(p.1, p.2)]) (by simpa using hs)
    rw [h2]
    simp

/-- Well-formedness of one tag map entry, as established by parse_tags:
keys contain no space, semicolon or equals sign; values contain no space
or semicolon; a key can be empty only when it carries a value. -/
def tagPairWF (p : Str × Option Str) : Prop :=
  ' ' ∉ p.1 ∧ ';' ∉ p.1 ∧ '=' ∉ p.1 ∧ ¬(p.1 = [] ∧ p.2 = Option.none) ∧
    ∀ v, p.2 = some v → ' ' ∉ v ∧ ';' ∉ v

theorem renderTagPair_ne_nil {p : Str × Option Str} (h : tagPairWF p) :
    renderTagPair p ≠ [] := by
  obtain ⟨k, v⟩ := p
  cases v with
  | none =>
    simp only [renderTagPair]
    intro he
    exact h.2.2.2.1 ⟨he, rfl⟩
  | some v => simp [renderTagPair]

theorem renderTagPair_break1 {p : Str × Option Str} (h : tagPairWF p) :
    break1 '=' (renderTagPair p) = (p.1, p.2) := by
  obtain ⟨k, v⟩ := p
  cases v with
  | none => exact break1_of_not_mem h.2.2.1
  | some v => exact break1_append h.2.2.1

theorem renderTagPair_not_mem {p : Str × Option Str} {c : Char} (h : tagPairWF p)
    (hc1 : c ≠ '=') (hc2 : c ∉ p.1) (hc3 : ∀ v, p.2 = some v → c ∉ v) :
    c ∉ renderTagPair p := by
  obtain ⟨k, v⟩ := p
  cases v with
  | none => exact hc2
  | some v =>
    simp only [renderTagPair, List.mem_append, List.mem_cons, not_or]
    exact ⟨hc2, hc1, hc3 v rfl⟩

theorem joinSep_not_mem {sep c : Char} {pieces : List Str} (hc : c ≠ sep)
    (h : ∀ p ∈ pieces, c ∉ p) : c ∉ joinSep sep pieces := by
  induction pieces with
  | nil => simp [joinSep]
  | cons x r ih =>
    cases r with
    | nil => exact h x (by simp)
    | cons y r' =>
      rw [joinSep_cons]
      simp only [List.mem_append, List.mem_cons, not_or]
      exact ⟨h x (by simp), hc, ih (fun p hp => h p (by simp [hp]))⟩

theorem parseTags_render {T : Tags} (hs : tagsSorted T) (hwf : ∀ p ∈ T, tagPairWF p) :
    parseTags (joinSep ';' (T.map renderTagPair)) = T := by
  cases T with
  | nil => rfl
  | cons p0 t0 =>
    rw [parseTags]
    have hsplit : splitCh ';' (joinSep ';' ((p0 :: t0).map renderTagPair)) =
        (p0 :: t0).map renderTagPair := by
      refine splitCh_joinSep (by simp) ?_
      intro q hq
      simp only [List.mem_map] at hq
      obtain ⟨p, hp, hpq⟩ := hq
      subst hpq
      have hw := hwf p hp
      exact renderTagPair_not_mem hw (by decide) hw.2.1 (fun v hv => ((hw.2.2.2.2 v hv)).2)
    rw [hsplit, List.foldl_map]
    have hfold : ∀ (T' : Tags), (∀ p ∈ T', tagPairWF p) → ∀ (acc : Tags),
        List.foldl (fun m p =>
          if renderTagPair p = [] then m
          else match break1 '=' (renderTagPair p) with
            | (k, v) => insertTag k v m) acc T' =
        List.foldl (fun m p => insertTag p.1 p.2 m) acc T' := by
      intro T'
      induction T' with
      | nil => intro _ _; rfl
      | cons q t ih =>
        intro hT' acc
        have hwq := hT' q (by simp)
        simp only [List.foldl_cons]
        rw [if_neg (renderTagPair_ne_nil hwq), renderTagPair_break1 hwq]
        exact ih (fun p hp => hT' p (by simp [hp])) _
    rw [hfold _ hwf _]
    exact foldl_insertTag (by simpa using hs)

/-! ### Prefix well-formedness and round-trip -/

/-- Structural facts parse_prefix guarantees about its result (the prefix
section contains no space; the host part is everything after the last at
sign, the user part everything after the last exclamation mark). -/
def pfxWF : Pfx → Prop
  | .full n u h => ' ' ∉ n ∧ ' ' ∉ u ∧ ' ' ∉ h ∧ '!' ∉ u ∧ '@' ∉ h
  | .userHost u h => ' ' ∉ u ∧ ' ' ∉ h ∧ '!' ∉ u ∧ '@' ∉ h
  | .host h => ' ' ∉ h ∧ '@' ∉ h
  | .none => True

theorem parsePrefix_ne_none (p : Str) : parsePrefix p ≠ Pfx.none := by
  unfold parsePrefix
  split
  · simp
  · split <;> simp

theorem parsePrefix_wf {p : Str} (hp : ' ' ∉ p) : pfxWF (parsePrefix p) := by
  unfold parsePrefix
  split
  · rename_i x h1
    obtain ⟨hx, hm⟩ := break1_none h1
    refine ⟨hp, ?_⟩
    intro hc
    exact hm (by simpa using hc)
  · rename_i x lrev h1
    obtain ⟨hdec, hm⟩ := break1_some h1
    have hpeq : p = lrev.reverse ++ '@' :: x.reverse := by
      have := congrArg List.reverse hdec
      simpa using this
    have hhost_sp : ' ' ∉ x.reverse := by
      intro hc
      exact hp (by rw [hpeq]; simp [hc])
    have hhost_at : '@' ∉ x.reverse := by
      intro hc
      exact hm (by simpa using hc)
    split
    · rename_i x2 h2
      obtain ⟨hx2, hm2⟩ := break1_none h2
      subst hx2
      refine ⟨?_, hhost_sp, ?_, hhost_at⟩
      · intro hc
        exact hp (by rw [hpeq]; simp [hc])
      · intro hc
        exact hm2 (by simpa using hc)
    · rename_i urev nrev h2
      obtain ⟨hdec2, hm2⟩ := break1_some h2
      refine ⟨?_, ?_, hhost_sp, ?_, hhost_at⟩
      · intro hc
        have hc' : ' ' ∈ nrev := by simpa using hc
        have : ' ' ∈ lrev := by rw [hdec2]; simp [hc']
        exact hp (by rw [hpeq]; simp [this])
      · intro hc
        have hc' : ' ' ∈ urev := by simpa using hc
        have : ' ' ∈ lrev := by rw [hdec2]; simp [hc']
        exact hp (by rw [hpeq]; simp [this])
      · intro hc
        exact hm2 (by simpa using hc)

theorem parsePrefix_full {n u h : Str} (hu : '!' ∉ u) (hh : '@' ∉ h) :
    parsePrefix (n ++ '!' :: u ++ '@' :: h) = Pfx.full n u h := by
  have hrev : (n ++ '!' :: u ++ '@' :: h).reverse =
      h.reverse ++ '@' :: (u.reverse ++ '!' :: n.reverse) := by
    simp
  have hb1 : break1 '@' (h.reverse ++ '@' :: (u.reverse ++ '!' :: n.reverse)) =
      (h.reverse, some (u.reverse ++ '!' :: n.reverse)) :=
    break1_append (by simpa using hh)
  have hb2 : break1 '!' (u.reverse ++ '!' :: n.reverse) = (u.reverse, some n.reverse) :=
    break1_append (by simpa using hu)
  simp [parsePrefix, hrev, hb1, hb2]

theorem parsePrefix_userHost {u h : Str} (hu : '!' ∉ u) (hh : '@' ∉ h) :
    parsePrefix (u ++ '@' :: h) = Pfx.userHost u h := by
  have hrev : (u ++ '@' :: h).reverse = h.reverse ++ '@' :: u.reverse := by
    simp
  have hb1 : break1 '@' (h.reverse ++ '@' :: u.reverse) = (h.reverse, some u.reverse) :=
    break1_append (by simpa using hh)
  have hb2 : break1 '!' u.reverse = (u.reverse, Option.none) :=
    break1_of_not_mem (by simpa using hu)
  simp [parsePrefix, hrev, hb1, hb2]

theorem parsePrefix_host {h : Str} (hh : '@' ∉ h) :
    parsePrefix h = Pfx.host h := by
  have hb1 : break1 '@' h.reverse = (h.reverse, Option.none) :=
    break1_of_not_mem (by simpa using hh)
  simp [parsePrefix, hb1]

/-! ### Command-section facts -/

theorem splitCh_first {c : Char} {l : Str} {h : Str} {r : List Str}
    (he : splitCh c l = h :: r) : h = [] ∨ h.head? = l.head? := by
  cases l with
  | nil => simp [splitCh] at he; simp [he]
  | cons a t =>
    by_cases hac : a = c
    · simp only [splitCh, if_pos hac] at he
      left
      exact (List.cons_eq_cons.mp he).1.symm
    · simp only [splitCh, if_neg hac] at he
      cases hs : splitCh c t with
      | nil => exact absurd hs (splitCh_ne_nil c t)
      | cons h0 r0 =>
        rw [hs] at he
        right
        rw [← (List.cons_eq_cons.mp he).1]
        rfl

theorem findPair_cons_elim {c1 c2 a b : Char} {t : Str}
    (h : findPair c1 c2 (a :: b :: t) = Option.none) :
    ¬(a = c1 ∧ b = c2) ∧ findPair c1 c2 (b :: t) = Option.none := by
  by_cases hab : a = c1 ∧ b = c2
  · simp [findPair, if_pos hab] at h
  · simp only [findPair, if_neg hab, Option.map_eq_none'] at h
    exact ⟨hab, h⟩

theorem splitCh_colon_facts {l : Str} (hnp : findPair ' ' ':' l = Option.none) :
    (∀ p ∈ (splitCh ' ' l).tail, p.head? ≠ some ':') ∧
      (l.head? ≠ some ':' → ∀ p ∈ splitCh ' ' l, p.head? ≠ some ':') := by
  induction l with
  | nil => simp [splitCh]
  | cons a t ih =>
    have hstep : findPair ' ' ':' t = Option.none ∧ (a = ' ' → t.head? ≠ some ':') := by
      cases t with
      | nil => simp [findPair]
      | cons b t' =>
        obtain ⟨h1, h2⟩ := findPair_cons_elim hnp
        refine ⟨h2, ?_⟩
        intro ha hb
        rw [List.head?_cons, Option.some_inj] at hb
        exact h1 ⟨ha, hb⟩
    obtain ⟨hfp_t, hhd_t⟩ := hstep
    obtain ⟨ihT, ihS⟩ := ih hfp_t
    by_cases ha : a = ' '
    · have hsp : splitCh ' ' (a :: t) = [] :: splitCh ' ' t := by
        simp [splitCh, ha]
      constructor
      · rw [hsp, List.tail_cons]
        exact ihS (hhd_t ha)
      · intro _ p hp
        rw [hsp, List.mem_cons] at hp
        rcases hp with hpe | hpe
        · simp [hpe]
        · exact ihS (hhd_t ha) p hpe
    · cases hs : splitCh ' ' t with
      | nil => exact absurd hs (splitCh_ne_nil ' ' t)
      | cons h0 r0 =>
        have hsp : splitCh ' ' (a :: t) = (a :: h0) :: r0 := by
          simp only [splitCh, if_neg ha, hs]
        constructor
        · rw [hsp, List.tail_cons]
          intro p hp
          exact ihT p (by simp [hs, hp])
        · intro hhead p hp
          rw [hsp, List.mem_cons] at hp
          rcases hp with hpe | hpe
          · subst hpe
            simpa using hhead
          · exact ihT p (by simp [hs, hpe])

theorem findPair_none_of_not_mem {c1 c2 : Char} {l : Str} (h : c1 ∉ l) :
    findPair c1 c2 l = Option.none := by
  induction l with
  | nil => rfl
  | cons a t ih =>
    simp at h
    cases t with
    | nil => rfl
    | cons b t' =>
      have hne : ¬(a = c1 ∧ b = c2) := by
        intro hc
        exact h.1 hc.1.symm
      simp only [findPair, if_neg hne]
      rw [ih h.2]
      rfl

theorem findPair_append_sep_none {c1 c2 : Char} {x z : Str} (hx : c1 ∉ x)
    (hz : z.head? ≠ some c2) (hfz : findPair c1 c2 z = Option.none) :
    findPair c1 c2 (x ++ c1 :: z) = Option.none := by
  induction x with
  | nil =>
    cases z with
    | nil => rfl
    | cons b z' =>
      have hb : b ≠ c2 := by
        intro hc
        exact hz (by simp [hc])
      simp [findPair, hb, hfz]
  | cons a t ih =>
    simp at hx
    have ha : a ≠ c1 := fun hh => hx.1 hh.symm
    rw [List.cons_append]
    refine findPair_cons_none ?_ (ih hx.2)
    intro b _
    intro hc
    exact ha hc.1

theorem joinSep_head {c : Char} {p : Str} (hp : p ≠ []) (rest : List Str) :
    (joinSep c (p :: rest)).head? = p.head? := by
  cases rest with
  | nil => rfl
  | cons q r =>
    rw [joinSep_cons]
    cases p with
    | nil => exact absurd rfl hp
    | cons a t => rfl

theorem findPair_cmdRender_none {name : Str} {args : List Str} (hn : ' ' ∉ name)
    (ha : ∀ p ∈ args, p ≠ [] ∧ ' ' ∉ p ∧ p.head? ≠ some ':') :
    findPair ' ' ':' (joinSep ' ' (name :: args)) = Option.none := by
  induction args generalizing name with
  | nil => exact findPair_none_of_not_mem hn
  | cons p rest ih =>
    rw [joinSep_cons]
    obtain ⟨hp1, hp2, hp3⟩ := ha p (by simp)
    refine findPair_append_sep_none hn ?_ (ih hp2 (fun q hq => ha q (by simp [hq])))
    rw [joinSep_head hp1]
    exact hp3

theorem command_render_joinSep (c : Command) :
    Command.render c = joinSep ' ' (c.name :: c.args) := by
  rw [Command.render]
  cases h : c.args with
  | nil => simp [joinSep]
  | cons p r => simp [joinSep_cons]

theorem parseCommand_render {name : Str} {args : List Str} (hn : ' ' ∉ name)
    (ha : ∀ p ∈ args, p ≠ [] ∧ ' ' ∉ p) :
    parseCommand (joinSep ' ' (name :: args)) = .ok (Command.mk name args) := by
  rw [parseCommand]
  rw [splitCh_joinSep (by simp) ?hmem]
  case hmem =>
    intro q hq
    simp at hq
    rcases hq with h | h
    · subst h; exact hn
    · exact (ha q h).2
  simp only []
  have : args.filter (· ≠ []) = args := by
    rw [List.filter_eq_self]
    intro q hq
    simpa using (ha q hq).1
  rw [this]

/-! ### Well-formedness established by Message.parse -/

/-- Invariants every successfully parsed message satisfies; they are
exactly what the serializer needs for the reparse to recover the value. -/
structure MessageWF (m : Message) : Prop where
  tags_sorted : tagsSorted m.tags
  tags_wf : ∀ p ∈ m.tags, tagPairWF p
  pfx_wf : pfxWF m.pfx
  name_nospace : ' ' ∉ m.command.name
  name_nocolon : m.pfx = Pfx.none → m.command.name.head? ≠ some ':'
  args_wf : ∀ a ∈ m.command.args, a ≠ [] ∧ ' ' ∉ a ∧ a.head? ≠ some ':'

theorem parseTags_fold_wf (pairs : List Str) (hps : ∀ q ∈ pairs, ';' ∉ q ∧ ' ' ∉ q) :
    ∀ acc : Tags, tagsSorted acc → (∀ p ∈ acc, tagPairWF p) →
      tagsSorted (pairs.foldl (fun m pair =>
          if pair = [] then m
          else match break1 '=' pair with
            | (k, v) => insertTag k v m) acc) ∧
        ∀ p ∈ pairs.foldl (fun m pair =>
          if pair = [] then m
          else match break1 '=' pair with
            | (k, v) => insertTag k v m) acc, tagPairWF p := by
  induction pairs with
  | nil => intro acc hs hw; exact ⟨hs, hw⟩
  | cons q rest ih =>
    intro acc hs hw
    simp only [List.foldl_cons]
    by_cases hq : q = []
    · rw [if_pos hq]
      exact ih (fun p hp => hps p (by simp [hp])) acc hs hw
    · rw [if_neg hq]
      obtain ⟨hqs, hqsp⟩ := hps q (by simp)
      rcases hb : break1 '=' q with ⟨k, v⟩
      have hkWF : tagPairWF (k, v) := by
        cases v with
        | none =>
          obtain ⟨hkq, hnm⟩ := break1_none hb
          subst hkq
          exact ⟨hqsp, hqs, hnm, by simp [hq], by simp⟩
        | some v' =>
          obtain ⟨hdec, hnm⟩ := break1_some hb
          refine ⟨?_, ?_, hnm, by simp, ?_⟩
          · intro hc; exact hqsp (by rw [hdec]; simp [hc])
          · intro hc; exact hqs (by rw [hdec]; simp [hc])
          · intro w hw'
            cases hw'
            constructor
            · intro hc; exact hqsp (by rw [hdec]; simp [hc])
            · intro hc; exact hqs (by rw [hdec]; simp [hc])
      refine ih (fun p hp => hps p (by simp [hp])) _ (insertTag_sorted hs) ?_
      intro p hp
      rcases mem_insertTag p hp with hpe | hpe
      · rw [hpe]; exact hkWF
      · exact hw p hpe

theorem parseTags_wf {raw : Str} (hsp : ' ' ∉ raw) :
    tagsSorted (parseTags raw) ∧ ∀ p ∈ parseTags raw, tagPairWF p := by
  rw [parseTags]
  refine parseTags_fold_wf (splitCh ';' raw) ?_ [] (by simp [tagsSorted]) (by simp)
  intro q hq
  refine ⟨splitCh_not_mem q hq, ?_⟩
  intro hc
  exact hsp (splitCh_subset q hq ' ' hc)

theorem parseStep1_wf {l : Str} {tags : Tags} {r : Str}
    (h : parseStep1 l = .ok (tags, r)) :
    tagsSorted tags ∧ ∀ p ∈ tags, tagPairWF p := by
  cases l with
  | nil => simp [parseStep1] at h
  | cons c rest =>
    by_cases hc : c = '@'
    · simp only [parseStep1, if_pos hc] at h
      rcases hb : break1 ' ' rest with ⟨pre, y⟩
      rw [hb] at h
      cases y with
      | none => simp at h
      | some r' =>
        simp at h
        obtain ⟨ht, _⟩ := h
        subst ht
        exact parseTags_wf (break1_some hb).2
    · simp only [parseStep1, if_neg hc] at h
      simp at h
      obtain ⟨ht, _⟩ := h
      subst ht
      exact ⟨by simp [tagsSorted], by simp⟩

theorem parseStep2_wf {l : Str} {pfx : Pfx} {r : Str}
    (h : parseStep2 l = .ok (pfx, r)) :
    pfxWF pfx ∧ (pfx = Pfx.none → r = l ∧ l.head? ≠ some ':') := by
  cases l with
  | nil => simp [parseStep2] at h
  | cons c rest =>
    by_cases hc : c = ':'
    · simp only [parseStep2, if_pos hc] at h
      rcases hb : break1 ' ' rest with ⟨pre, y⟩
      rw [hb] at h
      cases y with
      | none => simp at h
      | some r' =>
        simp at h
        obtain ⟨hp, _⟩ := h
        subst hp
        exact ⟨parsePrefix_wf (break1_some hb).2,
          fun hn => absurd hn (parsePrefix_ne_none _)⟩
    · simp only [parseStep2, if_neg hc] at h
      simp at h
      obtain ⟨hp, hr⟩ := h
      subst hp
      refine ⟨trivial, fun _ => ⟨hr.symm, ?_⟩⟩
      intro hcc
      rw [List.head?_cons, Option.some_inj] at hcc
      exact hc hcc

theorem splitTrailing_no_pair (raw : Str) :
    findPair ' ' ':' (splitTrailing raw).1 = Option.none := by
  rw [splitTrailing]
  cases hf : findPair ' ' ':' raw with
  | none => exact hf
  | some i => exact (findPair_some_decomp hf).2.1

theorem splitTrailing_head {raw : Str} (hne : (splitTrailing raw).1 ≠ []) :
    (splitTrailing raw).1.head? = raw.head? := by
  rw [splitTrailing] at hne ⊢
  cases hf : findPair ' ' ':' raw with
  | none => rfl
  | some i =>
    rw [hf] at hne
    simp only [hf]
    cases i with
    | zero => simp at hne
    | succ j =>
      cases raw with
      | nil => simp at hne
      | cons a t => simp [List.take_cons]

theorem parseCommand_wf {sec : Str} {cmd : Command}
    (hnp : findPair ' ' ':' sec = Option.none)
    (h : parseCommand sec = .ok cmd) :
    ' ' ∉ cmd.name ∧ (∀ a ∈ cmd.args, a ≠ [] ∧ ' ' ∉ a ∧ a.head? ≠ some ':') ∧
      (cmd.name ≠ [] → cmd.name.head? = sec.head?) := by
  rw [parseCommand] at h
  cases hs : splitCh ' ' sec with
  | nil => exact absurd hs (splitCh_ne_nil ' ' sec)
  | cons name rest =>
    rw [hs] at h
    simp at h
    subst h
    refine ⟨?_, ?_, ?_⟩
    · exact @splitCh_not_mem ' ' sec name (by simp [hs])
    · intro a ha
      simp only [List.mem_filter] at ha
      obtain ⟨har, hane⟩ := ha
      refine ⟨by simpa using hane, ?_, ?_⟩
      · exact @splitCh_not_mem ' ' sec a (by simp [hs, har])
      · exact (splitCh_colon_facts hnp).1 a (by simp [hs, har])
    · intro hne
      rcases splitCh_first hs with he | he
      · exact absurd he hne
      · exact he

/-! ### Reparse of a rendered message -/

theorem head?_append_left {x : Str} (hx : x ≠ []) (y : Str) :
    (x ++ y).head? = x.head? := by
  cases x with
  | nil => exact absurd rfl hx
  | cons a t => rfl

theorem parseStep1_noTags {l : Str} (hne : l ≠ []) (hh : l.head? ≠ some '@') :
    parseStep1 l = .ok ([], l) := by
  cases l with
  | nil => exact absurd rfl hne
  | cons c rest =>
    have hc : c ≠ '@' := by
      intro he
      exact hh (by simp [he])
    simp [parseStep1, hc]

theorem parseStep2_noPrefix {l : Str} (hne : l ≠ []) (hh : l.head? ≠ some ':') :
    parseStep2 l = .ok (Pfx.none, l) := by
  cases l with
  | nil => exact absurd rfl hne
  | cons c rest =>
    have hc : c ≠ ':' := by
      intro he
      exact hh (by simp [he])
    simp [parseStep2, hc]

theorem pfx_render_no_space {pf : Pfx} (hwf : pfxWF pf) (hne : pf ≠ Pfx.none) :
    ∃ body : Str, pf.render = ':' :: body ∧ ' ' ∉ body ∧ parsePrefix body = pf := by
  cases pf with
  | none => exact absurd rfl hne
  | full n u h =>
    obtain ⟨h1, h2, h3, h4, h5⟩ := hwf
    refine ⟨n ++ '!' :: u ++ '@' :: h, rfl, ?_, parsePrefix_full h4 h5⟩
    intro hc
    simp only [List.mem_append, List.mem_cons] at hc
    rcases hc with (hc | hc | hc) | (hc | hc)
    · exact h1 hc
    · exact absurd hc (by decide)
    · exact h2 hc
    · exact absurd hc (by decide)
    · exact h3 hc
  | userHost u h =>
    obtain ⟨h1, h2, h3, h4⟩ := hwf
    refine ⟨u ++ '@' :: h, rfl, ?_, parsePrefix_userHost h3 h4⟩
    intro hc
    simp only [List.mem_append, List.mem_cons] at hc
    rcases hc with hc | hc | hc
    · exact h1 hc
    · exact absurd hc (by decide)
    · exact h2 hc
  | host h =>
    obtain ⟨h1, h2⟩ := hwf
    exact ⟨h, rfl, h1, parsePrefix_host h2⟩

theorem parseStep2_prefix {pf : Pfx} (hwf : pfxWF pf) (hne : pf ≠ Pfx.none) (rest : Str) :
    parseStep2 (pf.render ++ ' ' :: rest) = .ok (pf, rest) := by
  obtain ⟨body, hb, hsp, hpp⟩ := pfx_render_no_space hwf hne
  rw [hb, List.cons_append]
  simp [parseStep2, break1_append hsp, hpp]

theorem tagBody_no_space {T : Tags} (hw : ∀ p ∈ T, tagPairWF p) :
    ' ' ∉ joinSep ';' (T.map renderTagPair) := by
  refine joinSep_not_mem (by decide) ?_
  intro q hq
  simp only [List.mem_map] at hq
  obtain ⟨p, hp, hpq⟩ := hq
  subst hpq
  have hwp := hw p hp
  exact renderTagPair_not_mem hwp (by decide) hwp.1 (fun v hv => (hwp.2.2.2.2 v hv).1)

theorem parseStep1_tags {T : Tags} (hs : tagsSorted T) (hw : ∀ p ∈ T, tagPairWF p)
    (rest : Str) :
    parseStep1 ('@' :: (joinSep ';' (T.map renderTagPair) ++ ' ' :: rest)) = .ok (T, rest) := by
  simp [parseStep1, break1_append (tagBody_no_space hw), parseTags_render hs hw]

/-- The trailing segment of a rendered message. -/
def trailStr : Option Str → Str
  | some t => ' ' :: ':' :: t
  | Option.none => []

/-- The prefix segment of a rendered message (with its trailing space). -/
def pfxStr : Pfx → Str
  | Pfx.none => []
  | p => Pfx.render p ++ [' ']

theorem render_decomp (m : Message) :
    Message.render m =
      (if m.tags = [] then [] else '@' :: joinSep ';' (m.tags.map renderTagPair) ++ [' '])
        ++ (pfxStr m.pfx ++ (m.command.render ++ trailStr m.trailing)) := by
  rw [Message.render]
  cases m.pfx <;> cases m.trailing <;> simp [pfxStr, trailStr, Pfx.render]

theorem splitTrailing_render {cmd : Command} (hn : ' ' ∉ cmd.name)
    (ha : ∀ p ∈ cmd.args, p ≠ [] ∧ ' ' ∉ p ∧ p.head? ≠ some ':') :
    ∀ tr : Option Str,
      splitTrailing (cmd.render ++ trailStr tr) = (cmd.render, tr) := by
  have hnp : findPair ' ' ':' cmd.render = Option.none := by
    rw [command_render_joinSep]
    exact findPair_cmdRender_none hn ha
  intro tr
  cases tr with
  | none =>
    show splitTrailing (cmd.render ++ []) = (cmd.render, Option.none)
    rw [List.append_nil, splitTrailing, hnp]
  | some t =>
    show splitTrailing (cmd.render ++ ' ' :: ':' :: t) = (cmd.render, some t)
    have hfp : findPair ' ' ':' (cmd.render ++ ' ' :: ':' :: t) = some cmd.render.length :=
      findPair_append (by decide) hnp t
    have htake : (cmd.render ++ ' ' :: ':' :: t).take cmd.render.length = cmd.render :=
      List.take_left cmd.render _
    have hdrop : (cmd.render ++ ' ' :: ':' :: t).drop (cmd.render.length + 2) = t := by
      have heq : cmd.render ++ ' ' :: ':' :: t = (cmd.render ++ [' ', ':']) ++ t := by simp
      rw [heq]
      have hlen : (cmd.render ++ [' ', ':']).length = cmd.render.length + 2 := by simp
      rw [← hlen]
      exact List.drop_left _ _
    simp only [splitTrailing, hfp, htake, hdrop]

theorem parse_ok_elim {L : Str} {m : Message} (h : Message.parse L = .ok m) :
    ∃ tags raw1 pfx raw2 cmd,
      parseStep1 L = .ok (tags, raw1) ∧ parseStep2 raw1 = .ok (pfx, raw2) ∧
        parseCommand (splitTrailing raw2).1 = .ok cmd ∧
        m = Message.mk tags pfx cmd (splitTrailing raw2).2 := by
  rw [Message.parse] at h
  split at h
  · simp at h
  · rename_i tags raw1 h1
    split at h
    · simp at h
    · rename_i pfx raw2 h2
      split at h
      · simp at h
      · rename_i cmd h3
        simp at h
        exact ⟨tags, raw1, pfx, raw2, cmd, h1, h2, h3, h.symm⟩

theorem sec_nil_name {sec : Str} {cmd : Command} (hsec : sec = [])
    (h : parseCommand sec = .ok cmd) : cmd.name = [] := by
  subst hsec
  simp [parseCommand, splitCh] at h
  rw [← h]

/-- Every message Message.parse produces is well-formed. -/
theorem parse_wf {L : Str} {m : Message} (h : Message.parse L = .ok m) : MessageWF m := by
  obtain ⟨tags, raw1, pfx, raw2, cmd, h1, h2, h3, hm⟩ := parse_ok_elim h
  subst hm
  obtain ⟨hsort, htwf⟩ := parseStep1_wf h1
  obtain ⟨hpwf, hpnone⟩ := parseStep2_wf h2
  obtain ⟨hname, hargs, hhd⟩ := parseCommand_wf (splitTrailing_no_pair raw2) h3
  refine ⟨hsort, htwf, hpwf, hname, ?_, hargs⟩
  intro hn
  obtain ⟨hr21, hcolon⟩ := hpnone hn
  cases hnm : cmd.name with
  | nil => simp
  | cons c0 nt =>
    have hne : cmd.name ≠ [] := by simp [hnm]
    have hsec_ne : (splitTrailing raw2).1 ≠ [] := by
      intro hsec
      exact hne (sec_nil_name hsec h3)
    rw [← hnm, hhd hne, splitTrailing_head hsec_ne, hr21]
    exact hcolon

theorem pfxStr_ne_none {pf : Pfx} (hne : pf ≠ Pfx.none) :
    pfxStr pf = pf.render ++ [' '] := by
  cases pf with
  | none => exact absurd rfl hne
  | full n u h => rfl
  | userHost u h => rfl
  | host h => rfl

theorem cmdTrail_shape (name : Str) (args : List Str) (tr : Option Str) :
    (name = [] ∧ args = [] ∧ tr = Option.none ∧
        Command.render ⟨name, args⟩ ++ trailStr tr = []) ∨
      (name ≠ [] ∧ (Command.render ⟨name, args⟩ ++ trailStr tr).head? = name.head?) ∨
      (Command.render ⟨name, args⟩ ++ trailStr tr).head? = some ' ' := by
  cases hn : name with
  | cons c0 nt =>
    refine Or.inr (Or.inl ⟨by simp, ?_⟩)
    rw [command_render_joinSep]
    have hj : (joinSep ' ' ((c0 :: nt) :: args)).head? = (c0 :: nt).head? :=
      joinSep_head (by simp) args
    have hne : joinSep ' ' ((c0 :: nt) :: args) ≠ [] := by
      intro he
      rw [he] at hj
      simp at hj
    rw [head?_append_left hne]
    exact hj
  | nil =>
    cases ha : args with
    | cons a as =>
      refine Or.inr (Or.inr ?_)
      rw [command_render_joinSep]
      rw [joinSep_cons]
      rfl
    | nil =>
      cases ht : tr with
      | some t => exact Or.inr (Or.inr (by simp [Command.render, trailStr]))
      | none => exact Or.inl ⟨rfl, rfl, rfl, by simp [Command.render, trailStr]⟩

/-- Reparsing lemma: rendering a well-formed message and parsing the
result recovers the message, provided the render does not degenerate
(hA: a tagless, prefixless message whose command name begins with an at
sign re-parses as a tag section; hB: a prefixless message with empty
name, no arguments and no trailing renders to a string whose command
part vanishes). -/
theorem render_parse {m : Message} (hwf : MessageWF m)
    (hA : ¬(m.tags = [] ∧ m.pfx = Pfx.none ∧ m.command.name.head? = some '@'))
    (hB : ¬(m.pfx = Pfx.none ∧ m.command.name = [] ∧ m.command.args = [] ∧
      m.trailing = Option.none)) :
    Message.parse (Message.render m) = .ok m := by
  obtain ⟨tags, pfx, cmd, tr⟩ := m
  obtain ⟨name, args⟩ := cmd
  obtain ⟨hsort, htwf, hpwf, hnsp, hncol, hargsw⟩ := hwf
  replace hsort : tagsSorted tags := hsort
  replace htwf : ∀ p ∈ tags, tagPairWF p := htwf
  replace hpwf : pfxWF pfx := hpwf
  replace hnsp : ' ' ∉ name := hnsp
  replace hncol : pfx = Pfx.none → name.head? ≠ some ':' := hncol
  replace hargsw : ∀ a ∈ args, a ≠ [] ∧ ' ' ∉ a ∧ a.head? ≠ some ':' := hargsw
  replace hA : ¬(tags = [] ∧ pfx = Pfx.none ∧ name.head? = some '@') := hA
  replace hB : ¬(pfx = Pfx.none ∧ name = [] ∧ args = [] ∧ tr = Option.none) := hB
  have hsplitCT : splitTrailing (Command.render ⟨name, args⟩ ++ trailStr tr) =
      (Command.render ⟨name, args⟩, tr) :=
    splitTrailing_render hnsp hargsw tr
  have hparseCmd : parseCommand (Command.render ⟨name, args⟩) = .ok (Command.mk name args) := by
    rw [command_render_joinSep]
    exact parseCommand_render hnsp (fun p hp => ⟨(hargsw p hp).1, (hargsw p hp).2.1⟩)
  have hCTne : pfx = Pfx.none → Command.render ⟨name, args⟩ ++ trailStr tr ≠ [] := by
    intro hpn he
    rcases cmdTrail_shape name args tr with ⟨hn0, ha0, ht0, _⟩ | ⟨hnne, hcthd⟩ | hcthd
    · exact hB ⟨hpn, hn0, ha0, ht0⟩
    · rw [he] at hcthd
      cases hx : name with
      | nil => exact hnne hx
      | cons c0 nt => rw [hx] at hcthd; simp at hcthd
    · rw [he] at hcthd; simp at hcthd
  have hCThd_colon : pfx = Pfx.none →
      (Command.render ⟨name, args⟩ ++ trailStr tr).head? ≠ some ':' := by
    intro hpn
    rcases cmdTrail_shape name args tr with ⟨_, _, _, hct0⟩ | ⟨hnne, hcthd⟩ | hcthd
    · rw [hct0]; simp
    · rw [hcthd]; exact hncol hpn
    · rw [hcthd]; decide
  have hCThd_at : tags = [] → pfx = Pfx.none →
      (Command.render ⟨name, args⟩ ++ trailStr tr).head? ≠ some '@' := by
    intro ht hpn
    rcases cmdTrail_shape name args tr with ⟨_, _, _, hct0⟩ | ⟨hnne, hcthd⟩ | hcthd
    · rw [hct0]; simp
    · rw [hcthd]; intro hhd; exact hA ⟨ht, hpn, hhd⟩
    · rw [hcthd]; decide
  have hstep2 : parseStep2 (pfxStr pfx ++ (Command.render ⟨name, args⟩ ++ trailStr tr)) =
      .ok (pfx, Command.render ⟨name, args⟩ ++ trailStr tr) := by
    cases hpfx : pfx with
    | none =>
      rw [show pfxStr Pfx.none = [] from rfl, List.nil_append]
      exact parseStep2_noPrefix (hCTne hpfx) (hCThd_colon hpfx)
    | full n u h =>
      rw [hpfx] at hpwf
      rw [pfxStr_ne_none (by simp), List.append_assoc, List.singleton_append]
      exact parseStep2_prefix hpwf (by simp) _
    | userHost u h =>
      rw [hpfx] at hpwf
      rw [pfxStr_ne_none (by simp), List.append_assoc, List.singleton_append]
      exact parseStep2_prefix hpwf (by simp) _
    | host h =>
      rw [hpfx] at hpwf
      rw [pfxStr_ne_none (by simp), List.append_assoc, List.singleton_append]
      exact parseStep2_prefix hpwf (by simp) _
  have hstep1 : parseStep1 (Message.render (Message.mk tags pfx ⟨name, args⟩ tr)) =
      .ok (tags, pfxStr pfx ++ (Command.render ⟨name, args⟩ ++ trailStr tr)) := by
    rw [render_decomp]
    by_cases htags : tags = []
    · rw [if_pos htags, List.nil_append, htags]
      refine parseStep1_noTags ?_ ?_
      · cases hpfx : pfx with
        | none =>
          rw [show pfxStr Pfx.none = [] from rfl, List.nil_append]
          exact hCTne hpfx
        | full n u h => rw [pfxStr_ne_none (by simp)]; simp [Pfx.render]
        | userHost u h => rw [pfxStr_ne_none (by simp)]; simp [Pfx.render]
        | host h => rw [pfxStr_ne_none (by simp)]; simp [Pfx.render]
      · cases hpfx : pfx with
        | none =>
          rw [show pfxStr Pfx.none = [] from rfl, List.nil_append]
          exact hCThd_at htags hpfx
        | full n u h => rw [pfxStr_ne_none (by simp)]; simp [Pfx.render]
        | userHost u h => rw [pfxStr_ne_none (by simp)]; simp [Pfx.render]
        | host h => rw [pfxStr_ne_none (by simp)]; simp [Pfx.render]
    · rw [if_neg htags]
      have hsh : ('@' :: joinSep ';' (tags.map renderTagPair) ++ [' ']) ++
          (pfxStr pfx ++ (Command.render ⟨name, args⟩ ++ trailStr tr)) =
          '@' :: (joinSep ';' (tags.map renderTagPair) ++ ' ' ::
            (pfxStr pfx ++ (Command.render ⟨name, args⟩ ++ trailStr tr))) := by
        simp
      rw [hsh]
      exact parseStep1_tags hsort htwf _
  simp only [Message.parse, hstep1, hstep2, hsplitCT, hparseCmd]

theorem parseStep1_error {l : Str} {e : String} (h : parseStep1 l = .error e) :
    e = "Unexpected end of input" := by
  cases l with
  | nil => simp [parseStep1] at h; exact h.symm
  | cons c rest =>
    by_cases hc : c = '@'
    · simp only [parseStep1, if_pos hc] at h
      rcases hb : break1 ' ' rest with ⟨pre, y⟩
      rw [hb] at h
      cases y with
      | none => simp at h; exact h.symm
      | some r => simp at h
    · simp [parseStep1, if_neg hc] at h

theorem parseStep2_error {l : Str} {e : String} (h : parseStep2 l = .error e) :
    e = "Unexpected end of input" := by
  cases l with
  | nil => simp [parseStep2] at h; exact h.symm
  | cons c rest =>
    by_cases hc : c = ':'
    · simp only [parseStep2, if_pos hc] at h
      rcases hb : break1 ' ' rest with ⟨pre, y⟩
      rw [hb] at h
      cases y with
      | none => simp at h; exact h.symm
      | some r => simp at h
    · simp [parseStep2, if_neg hc] at h

theorem parseCommand_never_errors (raw : Str) (e : String) :
    parseCommand raw ≠ .error e := by
  rw [parseCommand]
  cases hs : splitCh ' ' raw with
  | nil => exact absurd hs (splitCh_ne_nil ' ' raw)
  | cons n r => simp

/-- An example line and its parse, used by witnesses below. -/
def exampleLine : Str := ("@a=1 :nick!user@host PRIVMSG #ch :hello").toList

/-- The structured value exampleLine parses to. -/
def exampleMsg : Message :=
  Message.mk [(['a'], some ['1'])]
    (Pfx.full ("nick").toList ("user").toList ("host").toList)
    (Command.mk ("PRIVMSG").toList [("#ch").toList])
    (some ("hello").toList)

/-- C1 counterexample: the codec round-trip fails as stated.  The line
consisting of one space parses successfully to the all-empty message,
which re-serializes to the empty string, and the empty string does not
parse; the line consisting of an empty tag section followed by a command
name starting with an at sign re-parses differently; and a line with a
duplicate tag key parses to a map with a single entry for that key, so
tag multiplicities of the input line are not preserved. -/
theorem c1_roundtrip_counterexample :
    Message.parse ((" ").toList) =
        .ok (Message.mk [] Pfx.none (Command.mk [] []) Option.none) ∧
      Message.render (Message.mk [] Pfx.none (Command.mk [] []) Option.none) = [] ∧
      Message.parse ([] : Str) = .error ("Unexpected end of input") ∧
      Message.parse (("@ @x").toList) =
        .ok (Message.mk [] Pfx.none (Command.mk ['@', 'x'] []) Option.none) ∧
      Message.parse (Message.render
        (Message.mk [] Pfx.none (Command.mk ['@', 'x'] []) Option.none)) =
        .error ("Unexpected end of input") ∧
      Message.parse (("@a=1;a=2 CMD").toList) =
        .ok (Message.mk [(['a'], some ['2'])] Pfx.none
          (Command.mk (("CMD").toList) []) Option.none) := by
  refine ⟨?_, ?_, ?_, ?_, ?_, ?_⟩ <;> rfl

/-- C1 (amended): for every line the parser accepts whose parsed value m
is not degenerate — not (prefixless with empty command name, no
arguments and no trailing), and not (tagless, prefixless, with a command
name beginning with an at sign) — serializing m and parsing the result
yields a value equal to m; in particular the tag map (each distinct key
of the input once, duplicates collapsed to the last value at the first
parse), the prefix, the command name, the argument list with its
multiplicities, and the trailing all coincide. -/
theorem c1_roundtrip_amended {L : Str} {m : Message} (h : Message.parse L = .ok m)
    (hA : ¬(m.tags = [] ∧ m.pfx = Pfx.none ∧ m.command.name.head? = some '@'))
    (hB : ¬(m.pfx = Pfx.none ∧ m.command.name = [] ∧ m.command.args = [] ∧
      m.trailing = Option.none)) :
    Message.parse (Message.render m) = .ok m :=
  render_parse (parse_wf h) hA hB

/-- C1 witness: the amended round-trip instantiated on a concrete line. -/
theorem c1_roundtrip_amended_witness :
    Message.parse (Message.render exampleMsg) = .ok exampleMsg :=
  @c1_roundtrip_amended exampleLine exampleMsg (by rfl) (by decide) (by decide)

/-- C6 counterexample: a line whose command+arguments section contains no
command name (here a lone trailing sentinel) parses successfully with an
empty command name rather than failing with a dedicated error. -/
theorem c6_missing_command_counterexample :
    Message.parse ((" :x").toList) =
        .ok (Message.mk [] Pfx.none (Command.mk [] []) (some ['x'])) ∧
      (Message.mk [] Pfx.none (Command.mk [] []) (some ['x'])).command.name = [] := by
  exact ⟨rfl, rfl⟩

/-- C6 (amended): the dedicated missing-command-name error is
unreachable: Message::parse never returns the "Command expected" error,
because splitting the command+arguments section on spaces always yields
at least one (possibly empty) token, which becomes the command name; the
only parse errors are the end-of-input errors of the tag and prefix
stages. -/
theorem c6_no_missing_command_error :
    ∀ input : Str, Message.parse input ≠ .error ("Command expected") := by
  intro input h
  rw [Message.parse] at h
  split at h
  · rename_i e h1
    simp at h
    rw [h] at h1
    have := parseStep1_error h1
    exact absurd this (by decide)
  · rename_i tags raw1 h1
    split at h
    · rename_i e h2
      simp at h
      rw [h] at h2
      have := parseStep2_error h2
      exact absurd this (by decide)
    · rename_i pfx raw2 h2
      split at h
      · rename_i e h3
        simp at h
        rw [h] at h3
        exact parseCommand_never_errors _ _ h3
      · rename_i cmd h3
        simp at h

/-! ### Association-list model of the concurrent hash maps -/

/-- Lookup in an association list (CHashMap::get / HashMap::get). -/
def findVal {K V : Type} [DecidableEq K] (k : K) : List (K × V) → Option V
  | [] => Option.none
  | (k', v) :: t => if k = k' then some v else findVal k t

/-- In-place update of an existing key (mutation through a map guard). -/
def setVal {K V : Type} [DecidableEq K] (k : K) (v : V) : List (K × V) → List (K × V)
  | [] => []
  | (k', v') :: t => if k = k' then (k, v) :: t else (k', v') :: setVal k v t

/-- CHashMap::insert: replace the value if the key exists, else add it. -/
def insertVal {K V : Type} [DecidableEq K] (k : K) (v : V) : List (K × V) → List (K × V)
  | [] => [(k, v)]
  | (k', v') :: t => if k = k' then (k, v) :: t else (k', v') :: insertVal k v t

/-! ### Cooldown tracker (src/src/cooldown.rs; Instant and Duration as Nat) -/

/-- enum CooldownState (src/src/cooldown.rs:8-11). -/
inductive CooldownState where
  | ready
  | notReady (remaining : Nat)
deriving DecidableEq

/-- struct CooldownData (src/src/cooldown.rs:13-16). -/
structure CooldownData where
  value : Nat
  lastAccessed : Nat
deriving DecidableEq

/-- CooldownData::new (src/src/cooldown.rs:19-28); Nat subtraction models
the backdating (saturating at zero for an abstract clock close to zero). -/
def CooldownData.new (cooldown : Nat) (reset : Bool) (now : Nat) : CooldownData :=
  CooldownData.mk cooldown (if reset then now - cooldown else now)

/-- CooldownData::try_reset (src/src/cooldown.rs:31-47): the state is
reset to now only when when_reset < now (at equality the entry is still
NotReady with zero remaining). -/
def CooldownData.tryReset (d : CooldownData) (now : Nat) : CooldownState × CooldownData :=
  let whenReset := d.lastAccessed + d.value
  if whenReset ≥ now then (CooldownState.notReady (whenReset - now), d)
  else (CooldownState.ready, CooldownData.mk d.value now)

/-- CooldownData::cooldown (src/src/cooldown.rs:49-63): same decision
without mutating. -/
def CooldownData.cooldown (d : CooldownData) (now : Nat) : CooldownState :=
  let whenReset := d.lastAccessed + d.value
  if whenReset ≥ now then CooldownState.notReady (whenReset - now) else CooldownState.ready

/-- CooldownData::is_cooldown (src/src/cooldown.rs:65-70). -/
def CooldownData.isCooldown (d : CooldownData) (now : Nat) : Bool :=
  match d.cooldown now with
  | CooldownState.ready => false
  | CooldownState.notReady _ => true

/-- struct CooldownTracker (src/src/cooldown.rs:73-80), its CHashMap
modelled as an association list. -/
structure CooldownTracker (K : Type) where
  cooldownMap : List (K × CooldownData)
deriving DecidableEq

/-- CooldownTracker::access (src/src/cooldown.rs:100-105): peek with
cooldown(), and only when that reports Ready perform try_reset. Both
consult the same abstract instant now. -/
def CooldownTracker.access {K : Type} [DecidableEq K] (t : CooldownTracker K) (k : K)
    (now : Nat) : Option CooldownState × CooldownTracker K :=
  match findVal k t.cooldownMap with
  | Option.none => (Option.none, t)
  | some d =>
    match d.cooldown now with
    | CooldownState.ready =>
      let r := d.tryReset now
      (some r.1, CooldownTracker.mk (setVal k r.2 t.cooldownMap))
    | CooldownState.notReady rem => (some (CooldownState.notReady rem), t)

/-- CooldownTracker::contains (src/src/cooldown.rs:111-113). -/
def CooldownTracker.contains {K : Type} [DecidableEq K] (t : CooldownTracker K) (k : K) : Bool :=
  (findVal k t.cooldownMap).isSome

/-- CooldownTracker::update (src/src/cooldown.rs:116-120): replaces the
interval, leaving last_accessed untouched. -/
def CooldownTracker.update {K : Type} [DecidableEq K] (t : CooldownTracker K) (k : K)
    (newCooldown : Nat) : CooldownTracker K :=
  match findVal k t.cooldownMap with
  | Option.none => t
  | some d => CooldownTracker.mk (setVal k (CooldownData.mk newCooldown d.lastAccessed) t.cooldownMap)

/-- CooldownTracker::add_channel (src/src/cooldown.rs:123-125). -/
def CooldownTracker.addChannel {K : Type} [DecidableEq K] (t : CooldownTracker K) (k : K)
    (cooldown : Nat) (reset : Bool) (now : Nat) : CooldownTracker K :=
  CooldownTracker.mk (insertVal k (CooldownData.new cooldown reset now) t.cooldownMap)

/-- C2 counterexample: at the instant now = last-access + interval the
tracker answers not-ready (with zero remaining) and leaves the entry
untouched, where the claim requires ready: try_reset keeps NotReady on
when_reset >= now, which includes equality. -/
theorem c2_access_boundary_counterexample :
    (CooldownTracker.mk [(0, CooldownData.mk 5 0)] : CooldownTracker Nat).access 0 5 =
        (some (CooldownState.notReady 0), CooldownTracker.mk [(0, CooldownData.mk 5 0)]) ∧
      some (CooldownState.notReady 0) ≠ some CooldownState.ready := by
  exact ⟨rfl, by decide⟩

/-- C2 (amended): access(k) on a tracked key returns ready and sets
last-access to now exactly when now > last-access + interval (strictly);
at now = last-access + interval and earlier it returns not-ready
carrying last-access + interval - now and leaves the entry unchanged;
an untracked key yields none. -/
theorem c2_access_semantics_amended {K : Type} [DecidableEq K]
    (t : CooldownTracker K) (k : K) (now : Nat) :
    (findVal k t.cooldownMap = Option.none →
        t.access k now = (Option.none, t)) ∧
      ∀ d, findVal k t.cooldownMap = some d →
        (d.lastAccessed + d.value < now →
          t.access k now = (some CooldownState.ready,
            CooldownTracker.mk (setVal k (CooldownData.mk d.value now) t.cooldownMap))) ∧
        (now ≤ d.lastAccessed + d.value →
          t.access k now =
            (some (CooldownState.notReady (d.lastAccessed + d.value - now)), t)) := by
  constructor
  · intro hf
    rw [CooldownTracker.access, hf]
  · intro d hf
    constructor
    · intro hlt
      rw [CooldownTracker.access, hf]
      have hc : d.cooldown now = CooldownState.ready := by
        rw [CooldownData.cooldown]
        simp only [ge_iff_le]
        rw [if_neg (by omega)]
      have hr : d.tryReset now = (CooldownState.ready, CooldownData.mk d.value now) := by
        rw [CooldownData.tryReset]
        simp only [ge_iff_le]
        rw [if_neg (by omega)]
      simp only [hc, hr]
    · intro hle
      rw [CooldownTracker.access, hf]
      have hc : d.cooldown now = CooldownState.notReady (d.lastAccessed + d.value - now) := by
        rw [CooldownData.cooldown]
        simp only [ge_iff_le]
        rw [if_pos (by omega)]
      simp only [hc]

/-- C2 witness: the amended semantics applied to one concrete entry past
its interval and one inside it. -/
theorem c2_access_semantics_amended_witness :
    (CooldownTracker.mk [(0, CooldownData.mk 5 0)] : CooldownTracker Nat).access 0 6 =
        (some CooldownState.ready, CooldownTracker.mk [(0, CooldownData.mk 5 6)]) ∧
      (CooldownTracker.mk [(0, CooldownData.mk 5 0)] : CooldownTracker Nat).access 0 3 =
        (some (CooldownState.notReady 2), CooldownTracker.mk [(0, CooldownData.mk 5 0)]) :=
  ⟨((c2_access_semantics_amended (CooldownTracker.mk [(0, CooldownData.mk 5 0)]) 0 6).2
      (CooldownData.mk 5 0) (by decide)).1 (by decide),
    ((c2_access_semantics_amended (CooldownTracker.mk [(0, CooldownData.mk 5 0)]) 0 3).2
      (CooldownData.mk 5 0) (by decide)).2 (by decide)⟩

/-! ### History tracker (src/src/history.rs; Instant and Duration as Nat) -/

/-- struct HistoryEntry (src/src/history.rs:6-10). -/
structure HistoryEntry (D : Type) where
  timestamp : Nat
  data : D
  timesFound : Nat
deriving DecidableEq

/-- struct History (src/src/history.rs:16-19); per-channel VecDeque as a
list (front = head). -/
structure History (D : Type) where
  channels : List (Str × List (HistoryEntry D))
  ttl : Nat
deriving DecidableEq

/-- History::push (src/src/history.rs:36-45): push_back a fresh entry on
an existing channel; unknown channels are ignored. -/
def History.push {D : Type} [DecidableEq D] (h : History D) (channel : Str) (d : D)
    (now : Nat) : History D :=
  match findVal channel h.channels with
  | Option.none => h
  | some q => History.mk (setVal channel (q ++ [HistoryEntry.mk now d 0]) h.channels) h.ttl

/-- The find-and-increment part of History::contains
(src/src/history.rs:66-73): bump the first equal entry and return its
new counter, or 0 when no entry matches. -/
def bumpFound {D : Type} [DecidableEq D] (d : D) :
    List (HistoryEntry D) → Nat × List (HistoryEntry D)
  | [] => (0, [])
  | e :: t =>
    if e.data = d then
      (e.timesFound + 1, HistoryEntry.mk e.timestamp e.data (e.timesFound + 1) :: t)
    else
      match bumpFound d t with
      | (n, t') => (n, e :: t')

/-- History::contains (src/src/history.rs:51-76): pop expired front
entries (strictly older than now - ttl), then find-and-increment. -/
def History.contains {D : Type} [DecidableEq D] (h : History D) (channel : Str) (d : D)
    (now : Nat) : Option Nat × History D :=
  match findVal channel h.channels with
  | Option.none => (Option.none, h)
  | some q =>
    let q1 := q.dropWhile (fun e => e.timestamp + h.ttl < now)
    match bumpFound d q1 with
    | (n, q2) => (some n, History.mk (setVal channel q2 h.channels) h.ttl)

theorem mem_dropWhile_of_not {α : Type} (p : α → Bool) {e : α} {l : List α}
    (hm : e ∈ l) (hp : p e = false) : e ∈ l.dropWhile p := by
  induction l with
  | nil => simp at hm
  | cons a t ih =>
    rw [List.dropWhile_cons]
    by_cases ha : p a = true
    · rw [if_pos ha]
      rcases List.mem_cons.mp hm with he | he
      · subst he
        rw [hp] at ha
        exact absurd ha (by simp)
      · exact ih he
    · rw [if_neg ha]
      exact hm

theorem dropWhile_append_of_all {α : Type} (p : α → Bool) {xs : List α}
    (h : ∀ a ∈ xs, p a = true) (ys : List α) :
    (xs ++ ys).dropWhile p = ys.dropWhile p := by
  induction xs with
  | nil => rfl
  | cons a t ih =>
    rw [List.cons_append, List.dropWhile_cons, if_pos (h a (by simp))]
    exact ih (fun b hb => h b (by simp [hb]))

theorem bumpFound_pos {D : Type} [DecidableEq D] {d : D} {l : List (HistoryEntry D)}
    (hm : ∃ e ∈ l, e.data = d) : 1 ≤ (bumpFound d l).1 := by
  induction l with
  | nil => simp at hm
  | cons e t ih =>
    by_cases he : e.data = d
    · simp [bumpFound, he]
    · obtain ⟨e', he', hd'⟩ := hm
      rcases List.mem_cons.mp he' with hx | hx
      · subst hx
        exact absurd hd' he
      · simp only [bumpFound, if_neg he]
        rcases hb : bumpFound d t with ⟨n, t'⟩
        have := ih ⟨e', hx, hd'⟩
        rw [hb] at this
        simpa using this

theorem bumpFound_zero {D : Type} [DecidableEq D] {d : D} {l : List (HistoryEntry D)}
    (hm : ∀ e ∈ l, e.data ≠ d) : (bumpFound d l).1 = 0 := by
  induction l with
  | nil => rfl
  | cons e t ih =>
    have he : e.data ≠ d := hm e (by simp)
    simp only [bumpFound, if_neg he]
    rcases hb : bumpFound d t with ⟨n, t'⟩
    have := ih (fun e' he' => hm e' (by simp [he']))
    rw [hb] at this
    simpa using this

/-- C3 counterexample: with TTL 10, a payload pushed at time 0 is still
reported (count 1) by a query at exactly time 10 = t + TTL, where the
claim requires 0: eviction uses timestamp + ttl < now, strictly. -/
theorem c3_history_boundary_counterexample :
    (((History.mk [(['c'], [])] 10 : History Nat).push ['c'] 7 0).contains ['c'] 7 10).1 =
        some 1 ∧ (1 : Nat) ≠ 0 := by
  exact ⟨rfl, by decide⟩

/-- C3 (amended): after push(k, P) at time t with no later entry of P in
the queue and with every earlier entry at least as old, contains(k, P)
returns a count of at least 1 for every query at a time now ≤ t + TTL
(the instant t + TTL included), and returns 0 exactly from the first
instant strictly past t + TTL onwards. -/
theorem c3_history_expiry_amended {D : Type} [DecidableEq D]
    {h : History D} {k : Str} {P : D} {t c : Nat}
    {q1 q2 : List (HistoryEntry D)} (now : Nat)
    (hq : findVal k h.channels = some (q1 ++ HistoryEntry.mk t P c :: q2))
    (hq1 : ∀ e ∈ q1, e.timestamp ≤ t)
    (hq2 : ∀ e ∈ q2, e.data ≠ P) :
    (now ≤ t + h.ttl → ∃ n, (h.contains k P now).1 = some n ∧ 1 ≤ n) ∧
      (t + h.ttl < now → (h.contains k P now).1 = some 0) := by
  constructor
  · intro hle
    rw [History.contains, hq]
    have hmem : HistoryEntry.mk t P c ∈
        (q1 ++ HistoryEntry.mk t P c :: q2).dropWhile (fun e => e.timestamp + h.ttl < now) := by
      refine mem_dropWhile_of_not _ (by simp) ?_
      simp only [decide_eq_false_iff_not]
      omega
    have hpos := bumpFound_pos ⟨HistoryEntry.mk t P c, hmem, rfl⟩
    rcases hb : bumpFound P ((q1 ++ HistoryEntry.mk t P c :: q2).dropWhile
        (fun e => e.timestamp + h.ttl < now)) with ⟨n, q'⟩
    rw [hb] at hpos
    refine ⟨n, ?_, hpos⟩
    simp only [hb]
  · intro hlt
    rw [History.contains, hq]
    have hdrop : (q1 ++ HistoryEntry.mk t P c :: q2).dropWhile
        (fun e => e.timestamp + h.ttl < now) =
        q2.dropWhile (fun e => e.timestamp + h.ttl < now) := by
      have hre : q1 ++ HistoryEntry.mk t P c :: q2 = (q1 ++ [HistoryEntry.mk t P c]) ++ q2 := by
        simp
      rw [hre]
      refine dropWhile_append_of_all _ ?_ q2
      intro a ha
      rcases List.mem_append.mp ha with hx | hx
      · have := hq1 a hx
        simp only [decide_eq_true_eq]
        omega
      · simp at hx
        subst hx
        simp only [decide_eq_true_eq]
        omega
    simp only [hdrop]
    have hzero : (bumpFound P (q2.dropWhile (fun e => e.timestamp + h.ttl < now))).1 = 0 := by
      refine bumpFound_zero ?_
      intro e he
      exact hq2 e ((List.dropWhile_sublist _).mem he)
    rcases hb : bumpFound P (q2.dropWhile (fun e => e.timestamp + h.ttl < now)) with ⟨n, q'⟩
    rw [hb] at hzero
    simp only [hb]
    simpa using hzero

/-- C3 witness: the amended expiry window on a concrete queue, at the
boundary instant and just past it. -/
theorem c3_history_expiry_amended_witness :
    (∃ n, ((History.mk [(['c'], [HistoryEntry.mk 0 (7 : Nat) 0])] 10).contains ['c'] 7 10).1 =
        some n ∧ 1 ≤ n) ∧
      ((History.mk [(['c'], [HistoryEntry.mk 0 (7 : Nat) 0])] 10).contains ['c'] 7 11).1 =
        some 0 :=
  ⟨(@c3_history_expiry_amended Nat _ (History.mk [(['c'], [HistoryEntry.mk 0 7 0])] 10)
      (['c']) 7 0 0 [] [] 10 (by decide) (by simp) (by simp)).1 (by decide),
    (@c3_history_expiry_amended Nat _ (History.mk [(['c'], [HistoryEntry.mk 0 7 0])] 10)
      (['c']) 7 0 0 [] [] 11 (by decide) (by simp) (by simp)).2 (by decide)⟩

/-! ### Message deduplication suffix (src/src/util.rs) -/

/-- The SUFFIX table of modify_message (src/src/util.rs:18-27): the 31
characters U+E0000 and U+E0002..U+E001F (U+E0001 deliberately absent). -/
def SUFFIX : List Char :=
  [Char.ofNat 0xE0000, Char.ofNat 0xE0002, Char.ofNat 0xE0003,
   Char.ofNat 0xE0004, Char.ofNat 0xE0005, Char.ofNat 0xE0006, Char.ofNat 0xE0007,
   Char.ofNat 0xE0008, Char.ofNat 0xE0009, Char.ofNat 0xE000A, Char.ofNat 0xE000B,
   Char.ofNat 0xE000C, Char.ofNat 0xE000D, Char.ofNat 0xE000E, Char.ofNat 0xE000F,
   Char.ofNat 0xE0010, Char.ofNat 0xE0011, Char.ofNat 0xE0012, Char.ofNat 0xE0013,
   Char.ofNat 0xE0014, Char.ofNat 0xE0015, Char.ofNat 0xE0016, Char.ofNat 0xE0017,
   Char.ofNat 0xE0018, Char.ofNat 0xE0019, Char.ofNat 0xE001A, Char.ofNat 0xE001B,
   Char.ofNat 0xE001C, Char.ofNat 0xE001D, Char.ofNat 0xE001E, Char.ofNat 0xE001F]

/-- modify_message (src/src/util.rs:17-30): push SUFFIX[salt % 31]. -/
def modifyMessage (message : Str) (salt : Nat) : Str :=
  message ++ [SUFFIX.getD (salt % SUFFIX.length) (Char.ofNat 0)]

/-- UTF-8 byte length of a string modelled as a character list. -/
def utf8Len (s : Str) : Nat := (s.map Char.utf8Size).sum

theorem suffix_char_facts : ∀ i, i < 31 →
    (SUFFIX.getD i (Char.ofNat 0)).utf8Size = 4 ∧
      ((SUFFIX.getD i (Char.ofNat 0)).toNat = 0xE0000 ∨
        (0xE0002 ≤ (SUFFIX.getD i (Char.ofNat 0)).toNat ∧
          (SUFFIX.getD i (Char.ofNat 0)).toNat ≤ 0xE001F)) := by decide

/-- C8: modify_message appends exactly one code point — the character
SUFFIX[n mod 31] — leaving the rest of the string unchanged; the UTF-8
byte length grows by exactly 4 (hence stays within len(s)+4); and the
appended code point is U+E0000 or lies in U+E0002..U+E001F. -/
theorem c8_modify_message_suffix (s : Str) (n : Nat) :
    ∃ c : Char, modifyMessage s n = s ++ [c] ∧
      c = SUFFIX.getD (n % 31) (Char.ofNat 0) ∧
      utf8Len (modifyMessage s n) = utf8Len s + 4 ∧
      utf8Len (modifyMessage s n) ≤ utf8Len s + 4 ∧
      (c.toNat = 0xE0000 ∨ (0xE0002 ≤ c.toNat ∧ c.toNat ≤ 0xE001F)) := by
  have hlen : SUFFIX.length = 31 := rfl
  have hmod : n % SUFFIX.length < 31 := by
    rw [hlen]
    exact Nat.mod_lt n (by decide)
  obtain ⟨hsize, hrange⟩ := suffix_char_facts (n % SUFFIX.length) hmod
  refine ⟨SUFFIX.getD (n % SUFFIX.length) (Char.ofNat 0), rfl, by rw [hlen], ?_, ?_, hrange⟩
  · rw [modifyMessage, utf8Len, utf8Len, List.map_append, List.sum_append]
    simp only [List.map_cons, List.map_nil, List.sum_cons, List.sum_nil, hsize]
    omega
  · rw [modifyMessage, utf8Len, utf8Len, List.map_append, List.sum_append]
    simp only [List.map_cons, List.map_nil, List.sum_cons, List.sum_nil, hsize]
    omega

/-! ### Executor cooldown evaluation, both cooldowns declared
(src/src/executor.rs:133-171) -/

/-- The (Some, Some) arm of the cooldown match in execute
(src/src/executor.rs:133-171): take the user entry's guard; if the user
entry is cooling down, drop; otherwise access (and possibly reset) the
global command cooldown, and only when it reports Ready try_reset the
user entry and run the handler.  The Bool is whether the handler runs;
the trackers are returned in their post-branch state. -/
def bothCooldownBranch (userT : CooldownTracker (Str × Str)) (globalT : CooldownTracker Str)
    (pair : Str × Str) (cmdName : Str) (now : Nat) :
    Bool × CooldownTracker (Str × Str) × CooldownTracker Str :=
  match findVal pair userT.cooldownMap with
  | Option.none => (false, userT, globalT)
  | some u =>
    if u.isCooldown now then (false, userT, globalT)
    else
      match globalT.access cmdName now with
      | (Option.none, g') => (false, userT, g')
      | (some CooldownState.ready, g') =>
        match u.tryReset now with
        | (CooldownState.ready, u') =>
          (true, CooldownTracker.mk (setVal pair u' userT.cooldownMap), g')
        | (CooldownState.notReady _, u') =>
          (false, CooldownTracker.mk (setVal pair u' userT.cooldownMap), g')
      | (some (CooldownState.notReady _), g') => (false, userT, g')

/-- C4: with both cooldowns declared, the per-(command, user) cooldown is
evaluated before the global command cooldown: if the user entry is
currently cooling down the invocation is dropped with the global command
tracker left exactly as it was; and whenever the global command tracker
state changes at all, the user check had passed (the entry was not
cooling down), so the command cooldown is reset only when the user check
passes. -/
theorem c4_cooldown_ordering {userT : CooldownTracker (Str × Str)}
    {globalT : CooldownTracker Str} {pair : Str × Str} {cmdName : Str} {now : Nat} :
    (∀ u, findVal pair userT.cooldownMap = some u → u.isCooldown now = true →
        bothCooldownBranch userT globalT pair cmdName now = (false, userT, globalT)) ∧
      ∀ res, bothCooldownBranch userT globalT pair cmdName now = res →
        res.2.2 ≠ globalT →
        ∃ u, findVal pair userT.cooldownMap = some u ∧ u.isCooldown now = false := by
  constructor
  · intro u hf hcd
    rw [bothCooldownBranch]
    simp only [hf, hcd]
    rfl
  · intro res hres hne
    rw [bothCooldownBranch] at hres
    cases hf : findVal pair userT.cooldownMap with
    | none =>
      simp only [hf] at hres
      subst hres
      exact absurd rfl hne
    | some u =>
      simp only [hf] at hres
      by_cases hcd : u.isCooldown now
      · rw [if_pos hcd] at hres
        subst hres
        exact absurd rfl hne
      · exact ⟨u, rfl, by simpa using hcd⟩

/-- C4 witness: a cooling-down user entry drops the invocation and the
global command tracker is untouched. -/
theorem c4_cooldown_ordering_witness :
    bothCooldownBranch (CooldownTracker.mk [((['u'], ['v']), CooldownData.mk 5 0)])
        (CooldownTracker.mk [(['c'], CooldownData.mk 5 0)]) (['u'], ['v']) ['c'] 3 =
      (false, CooldownTracker.mk [((['u'], ['v']), CooldownData.mk 5 0)],
        CooldownTracker.mk [(['c'], CooldownData.mk 5 0)]) :=
  c4_cooldown_ordering.1 (CooldownData.mk 5 0) (by decide) (by decide)

/-! ### Receiver loop, per-line dispatch (src/src/messaging.rs:123-182) -/

/-- struct PreparedCommand (src/src/executor.rs:42-45). -/
structure PreparedCommand where
  message : Str
  command : Str
deriving DecidableEq

/-- The fields of BotState the receiver dispatch reads
(src/src/state.rs:10-18); cmdPrefix embeds the source field holding the
command prefix. -/
structure BotStateM where
  username : Str
  usernameWithAt : Str
  cmdPrefix : Str
deriving DecidableEq

/-- BotState::try_convert_to_command (src/src/state.rs:40-50); Rust
trim_start (Unicode whitespace) is modelled with Char.isWhitespace. -/
def tryConvertToCommand (st : BotStateM) (m : Message) : Option Str :=
  match m.trailing with
  | Option.none => Option.none
  | some s =>
    if st.cmdPrefix.isPrefixOf s then
      some ((s.drop st.cmdPrefix.length).dropWhile Char.isWhitespace)
    else if st.usernameWithAt.isPrefixOf s then
      some ((s.drop st.usernameWithAt.length).dropWhile Char.isWhitespace)
    else Option.none

/-- Outcome of handling one line in receiver_event_loop: the Action
taken (enum Action, src/src/messaging.rs:46-51), a logged parse error,
or a panic. -/
inductive ReceiverOutcome where
  | panicked (message : String)
  | executeCommand (pc : PreparedCommand)
  | sendMessage (text : Str)
  | noAction
  | parseError
deriving DecidableEq

/-- MODERATOR_CD (src/src/messaging.rs:146), in milliseconds. -/
def MODERATOR_CD : Nat := 100

/-- One iteration of the per-line dispatch in receiver_event_loop
(src/src/messaging.rs:123-182), returning the outcome together with the
messaging cooldown tracker (which the USERSTATE arm may update).  The
unwrap of first_arg_as_channel_name on line 148 becomes a panicked
outcome when the parsed argument list is empty. -/
def receiverHandleLine (st : BotStateM) (cooldowns : CooldownTracker Str) (raw : Str) :
    ReceiverOutcome × CooldownTracker Str :=
  match Message.parse raw with
  | .error _ => (ReceiverOutcome.parseError, cooldowns)
  | .ok m =>
    if m.command.name = ("PRIVMSG").toList then
      match tryConvertToCommand st m with
      | some command =>
        (ReceiverOutcome.executeCommand (PreparedCommand.mk raw command), cooldowns)
      | Option.none => (ReceiverOutcome.noAction, cooldowns)
    else if m.command.name = ("PING").toList then
      (ReceiverOutcome.sendMessage (Message.render
          (Message.mk [] Pfx.none (Command.mk (("PONG").toList) []) (some (m.trailing.getD [])))),
        cooldowns)
    else if m.command.name = ("USERSTATE").toList then
      match m.firstArgAsChannelName with
      | Option.none =>
        (ReceiverOutcome.panicked ("called Option::unwrap() on a None value"), cooldowns)
      | some channel =>
        (ReceiverOutcome.noAction,
          (splitTerminator ',' ((m.tagValue (("badges").toList)).getD [])).foldl
            (fun cd badge =>
              if (("moderator").toList).isPrefixOf badge then cd.update channel MODERATOR_CD
              else cd)
            cooldowns)
    else (ReceiverOutcome.noAction, cooldowns)

/-- C5: the code contradicts the no-single-line-is-fatal claim: a
recognized USERSTATE line carrying no channel argument panics in the
receiver loop (unwrap of first_arg_as_channel_name, which is None when
the argument list is empty), while a USERSTATE line with a channel but
without a badges tag is handled without panic, as the claim expects. -/
theorem c5_userstate_panic :
    (receiverHandleLine (BotStateM.mk (("bot").toList) (("@bot").toList) ((">>").toList))
        (CooldownTracker.mk []) (("USERSTATE").toList)).1 =
        ReceiverOutcome.panicked ("called Option::unwrap() on a None value") ∧
      (receiverHandleLine (BotStateM.mk (("bot").toList) (("@bot").toList) ((">>").toList))
        (CooldownTracker.mk []) (("USERSTATE #ch").toList)).1 = ReceiverOutcome.noAction := by
  exact ⟨rfl, rfl⟩

/-- C10: Message.parse is deterministic (it is a pure function of the
line), and every prepared command the receiver enqueues carries exactly
the raw line that has just parsed successfully, so the executor's second
parse of that same string (src/src/executor.rs:67) succeeds and its
unwrap cannot panic. -/
theorem c10_executor_reparse_safe (st : BotStateM) (cooldowns : CooldownTracker Str)
    (raw : Str) (pc : PreparedCommand)
    (h : (receiverHandleLine st cooldowns raw).1 = ReceiverOutcome.executeCommand pc) :
    (∀ s : Str, Message.parse s = Message.parse s) ∧
      ∃ m, Message.parse pc.message = .ok m := by
  refine ⟨fun s => rfl, ?_⟩
  rw [receiverHandleLine] at h
  cases hp : Message.parse raw with
  | error e => simp [hp] at h
  | ok m =>
    simp only [hp] at h
    by_cases h1 : m.command.name = ("PRIVMSG").toList
    · rw [if_pos h1] at h
      cases hc : tryConvertToCommand st m with
      | none => simp [hc] at h
      | some command =>
        simp only [hc] at h
        have hpc : PreparedCommand.mk raw command = pc := by
          simpa using h
        rw [← hpc]
        exact ⟨m, hp⟩
    · rw [if_neg h1] at h
      by_cases h2 : m.command.name = ("PING").toList
      · rw [if_pos h2] at h
        simp at h
      · rw [if_neg h2] at h
        by_cases h3 : m.command.name = ("USERSTATE").toList
        · rw [if_pos h3] at h
          cases hf : m.firstArgAsChannelName with
          | none => simp [hf] at h
          | some channel => simp [hf] at h
        · rw [if_neg h3] at h
          simp at h

/-- C10 witness: a concrete command line goes through the receiver and
re-parses in the executor. -/
theorem c10_executor_reparse_safe_witness :
    (∀ s : Str, Message.parse s = Message.parse s) ∧
      ∃ m, Message.parse
        ((PreparedCommand.mk (("@display-name=U PRIVMSG #ch :>>echo hi").toList)
          (("echo hi").toList)).message) = .ok m :=
  c10_executor_reparse_safe
    (BotStateM.mk (("bot").toList) (("@bot").toList) ((">>").toList))
    (CooldownTracker.mk []) (("@display-name=U PRIVMSG #ch :>>echo hi").toList)
    (PreparedCommand.mk (("@display-name=U PRIVMSG #ch :>>echo hi").toList)
      (("echo hi").toList))
    (by rfl)

/-! ### Sandboxed Lua evaluator (src/src/lua.rs) -/

/-- enum ExecutionStatus (src/src/lua.rs:6-11). -/
inductive ExecutionStatus where
  | success
  | compilationError
  | runtimeError
deriving DecidableEq

/-- struct SuccessfulExecution (src/src/lua.rs:74-77). -/
structure SuccessfulExecution where
  instructionsLeft : Int
  result : Str
deriving DecidableEq

/-- Rust str::trim, modelled with Char.isWhitespace on both ends. -/
def trimWs (s : Str) : Str :=
  ((s.dropWhile Char.isWhitespace).reverse.dropWhile Char.isWhitespace).reverse

/-- strip_location (src/src/lua.rs:79-88). -/
def stripLocation (s : Str) : Str :=
  if (("[string").toList).isPrefixOf s then
    match findPair ']' ':' s with
    | some loc1 =>
      match findIdxCh ' ' (s.drop loc1) with
      | some loc2 => trimWs (s.drop (loc1 + loc2))
      | Option.none => s
    | Option.none => s
  else s

/-- Outcome of compiled.call at the host boundary
(src/src/lua.rs:121-137): the sandbox wrapper returned a
(status, string) pair, or the protected call failed with a host error
(carried as its rendered text). -/
inductive CallOutcome where
  | callOk (status : ExecutionStatus) (s : Str)
  | callErr (e : Str)
deriving DecidableEq

/-- The match of run_untrusted_lua_code over the load/call results
(src/src/lua.rs:120-140), with the timeout flag and the remaining
instruction count read from the hook state. -/
def hostOutcome (loadResult : Except Str CallOutcome) (timeoutRaised : Bool)
    (instructionsLeft : Int) : Except Str SuccessfulExecution :=
  match loadResult with
  | .error err => .error ((("ERROR: ").toList) ++ err)
  | .ok (CallOutcome.callOk ExecutionStatus.success result) =>
    .ok (SuccessfulExecution.mk instructionsLeft result)
  | .ok (CallOutcome.callOk ExecutionStatus.compilationError s) =>
    .error ((("ERROR: ").toList) ++ stripLocation s)
  | .ok (CallOutcome.callOk ExecutionStatus.runtimeError s) =>
    .error ((("ERROR: ").toList) ++ stripLocation s)
  | .ok (CallOutcome.callErr err) =>
    if timeoutRaised then .error ((("ERROR: instruction limit reached").toList))
    else .error ((("ERROR: ").toList) ++ err)

/-- State shared with the instruction hook (src/src/lua.rs:98-101):
remaining instructions and the timeout flag. -/
structure HookState where
  instructions : Int
  timeoutRaised : Bool
deriving DecidableEq

/-- The hook closure (src/src/lua.rs:110-117): fetch_sub(1) returns the
previous value and decrements; when the previous value is below 1 the
flag is set and the hook raises (Bool false = raised). -/
def hookStep (s : HookState) : Bool × HookState :=
  let previous := s.instructions
  if previous < 1 then (false, HookState.mk (s.instructions - 1) true)
  else (true, HookState.mk (s.instructions - 1) s.timeoutRaised)

/-- Modelled from the spec: the Lua engine (the external rlua crate, not
part of this repository's sources) fires the instrumented hook before
every executed instruction (every_nth_instruction = 1,
src/src/lua.rs:107).  runHooks iterates the hook for the script's
instruction count, stopping at the first raise; Bool false means a
raise happened. -/
def runHooks : Nat → HookState → Bool × HookState
  | 0, s => (true, s)
  | k + 1, s =>
    match hookStep s with
    | (false, s') => (false, s')
    | (true, s') => runHooks k s'

/-- Modelled from the spec: a protected call of a script that executes
instructionCount instructions under the hook.  If a hook firing raises
(the instruction ceiling is exceeded) the call fails at the host
boundary with the hook's error; otherwise the sandbox wrapper returns
its (status, string) pair. -/
def runScriptVM (instructionCount : Nat) (limit : Int) (normal : ExecutionStatus × Str) :
    Except Str CallOutcome × HookState :=
  match runHooks instructionCount (HookState.mk limit false) with
  | (false, s') => (.ok (CallOutcome.callErr (("execution timeout!").toList)), s')
  | (true, s') => (.ok (CallOutcome.callOk normal.1 normal.2), s')

/-- run_untrusted_lua_code (src/src/lua.rs:91-141) composed with the
modelled engine. -/
def runUntrustedLuaCode (instructionCount : Nat) (limit : Int)
    (normal : ExecutionStatus × Str) : Except Str SuccessfulExecution :=
  match runScriptVM instructionCount limit normal with
  | (callRes, s') => hostOutcome callRes s'.timeoutRaised s'.instructions

theorem runHooks_exceeds : ∀ (k : Nat) (s : HookState), s.timeoutRaised = false →
    0 ≤ s.instructions → s.instructions < (k : Int) →
    (runHooks k s).1 = false ∧ (runHooks k s).2.timeoutRaised = true := by
  intro k
  induction k with
  | zero =>
    intro s _ h0 hk
    simp at hk
    omega
  | succ k ih =>
    intro s hf h0 hk
    rw [runHooks, hookStep]
    by_cases hi : s.instructions < 1
    · simp [hi]
    · rw [if_neg hi]
      simp only []
      refine ih (HookState.mk (s.instructions - 1) s.timeoutRaised) hf
        (by show (0:Int) ≤ s.instructions - 1; omega) ?_
      show s.instructions - 1 < (k : Int)
      push_cast at hk
      omega

/-- C7: at the host boundary, a protected call that failed with the
timeout flag set reports exactly "ERROR: instruction limit reached";
with the flag clear the host error text is forwarded behind the ERROR:
prefix; and a script executing more instructions than the ceiling ends
in the instruction-limit error, never in a success result. -/
theorem c7_instruction_limit :
    (∀ (e : Str) (n : Int), hostOutcome (.ok (CallOutcome.callErr e)) true n =
        .error ((("ERROR: instruction limit reached").toList))) ∧
      (∀ (e : Str) (n : Int), hostOutcome (.ok (CallOutcome.callErr e)) false n =
        .error ((("ERROR: ").toList) ++ e)) ∧
      ∀ (k : Nat) (limit : Int) (normal : ExecutionStatus × Str),
        0 ≤ limit → limit < (k : Int) →
        runUntrustedLuaCode k limit normal =
          .error ((("ERROR: instruction limit reached").toList)) := by
  refine ⟨fun e n => rfl, fun e n => rfl, ?_⟩
  intro k limit normal h0 hk
  obtain ⟨h1, h2⟩ := runHooks_exceeds k (HookState.mk limit false) rfl h0 hk
  rw [runUntrustedLuaCode, runScriptVM]
  rcases hr : runHooks k (HookState.mk limit false) with ⟨b, s'⟩
  rw [hr] at h1 h2
  simp only at h1 h2
  subst h1
  simp [hostOutcome, h2]

/-- C7 witness: a three-instruction script under a ceiling of two. -/
theorem c7_instruction_limit_witness :
    runUntrustedLuaCode 3 2 (ExecutionStatus.success, ("42").toList) =
      .error ((("ERROR: instruction limit reached").toList)) :=
  c7_instruction_limit.2.2 3 2 (ExecutionStatus.success, ("42").toList)
    (by decide) (by decide)

/-! ### Sender event loop, one message (src/src/messaging.rs:192-303) -/

/-- struct PreparedMessage (src/src/messaging.rs:84-87). -/
structure PreparedMessage where
  channel : Str
  message : Str
deriving DecidableEq

/-- Outcome of the banphrase API request followed by the JSON decode
(src/src/messaging.rs:235-252): a decoded response carrying the banned
flag, an undecodable response, or a transport failure. -/
inductive BanphraseReply where
  | okJson (banned : Bool)
  | badJson
  | transportError
deriving DecidableEq

/-- Observable actions of one iteration of the sender loop, in program
order. -/
inductive SenderEvent where
  | banphraseRequested (text : Str)
  | slept (d : Nat)
  | droppedNoChannel
  | droppedBanned
  | droppedBadResponse
  | droppedBanphraseFailed
  | historyPushed (channel : Str) (text : Str)
  | socketWrite (text : Str)
deriving DecidableEq

/-- One iteration of sender_event_loop (src/src/messaging.rs:204-299)
for a received PreparedMessage: emits its observable events in program
order and returns the updated cooldown tracker and history.  now1 is the
instant of the first cooldown peek, now2 of the history operations, now3
of the final try_reset.  The serialized PRIVMSG is produced by
MessageBuilder (src/src/irc.rs:233-271), i.e. Display of the built
message. -/
def senderStep (cooldowns : CooldownTracker Str) (history : History Str)
    (pm : PreparedMessage) (reply : BanphraseReply) (now1 now2 now3 : Nat) :
    List SenderEvent × CooldownTracker Str × History Str :=
  match findVal pm.channel cooldowns.cooldownMap with
  | Option.none =>
    ([SenderEvent.banphraseRequested pm.message, SenderEvent.droppedNoChannel],
      cooldowns, history)
  | some d =>
    let ev1 : List SenderEvent :=
      match d.cooldown now1 with
      | CooldownState.ready => [SenderEvent.banphraseRequested pm.message]
      | CooldownState.notReady howLong =>
        [SenderEvent.banphraseRequested pm.message, SenderEvent.slept howLong]
    match reply with
    | BanphraseReply.transportError =>
      (ev1 ++ [SenderEvent.droppedBanphraseFailed], cooldowns, history)
    | BanphraseReply.badJson =>
      (ev1 ++ [SenderEvent.droppedBadResponse], cooldowns, history)
    | BanphraseReply.okJson true =>
      (ev1 ++ [SenderEvent.droppedBanned], cooldowns, history)
    | BanphraseReply.okJson false =>
      match history.contains pm.channel pm.message now2 with
      | (Option.none, h1) =>
        (ev1 ++ [SenderEvent.droppedNoChannel], cooldowns, h1)
      | (some n, h1) =>
        match
          (match n with
          | 0 =>
            (pm.message,
              ev1 ++ [SenderEvent.historyPushed pm.channel pm.message],
              h1.push pm.channel pm.message now2)
          | Nat.succ m =>
            (modifyMessage pm.message m, ev1, h1) :
            Str × List SenderEvent × History Str) with
        | (msg, ev2, h2) =>
          match findVal pm.channel cooldowns.cooldownMap with
          | Option.none => (ev2 ++ [SenderEvent.droppedNoChannel], cooldowns, h2)
          | some d2 =>
            let text := Message.render (Message.mk [] Pfx.none
              (Command.mk (("PRIVMSG").toList) ['#' :: pm.channel]) (some msg))
            match d2.tryReset now3 with
            | (CooldownState.notReady howLong, d2') =>
              (ev2 ++ [SenderEvent.slept howLong, SenderEvent.socketWrite text],
                CooldownTracker.mk (setVal pm.channel d2' cooldowns.cooldownMap), h2)
            | (CooldownState.ready, d2') =>
              (ev2 ++ [SenderEvent.socketWrite text],
                CooldownTracker.mk (setVal pm.channel d2' cooldowns.cooldownMap), h2)

def SenderEvent.isHistoryPush : SenderEvent → Bool
  | SenderEvent.historyPushed _ _ => true
  | _ => false

def SenderEvent.isSocketWrite : SenderEvent → Bool
  | SenderEvent.socketWrite _ => true
  | _ => false

/-- Index of the first event satisfying p. -/
def firstIdxWhere (p : SenderEvent → Bool) : List SenderEvent → Option Nat
  | [] => Option.none
  | e :: t => if p e then some 0 else (firstIdxWhere p t).map (· + 1)

/-- C9 counterexample: a concrete sender iteration (tracked channel,
not banned, message unseen in-window) whose history push happens at
event index 1, strictly before the socket write at index 2 - the push
precedes the write, where the claim requires it to come only after. -/
theorem c9_push_before_write_counterexample :
    (firstIdxWhere SenderEvent.isHistoryPush
        (senderStep (CooldownTracker.mk [((("ch").toList), CooldownData.mk 0 0)])
          (History.mk [((("ch").toList), [])] 10)
          (PreparedMessage.mk (("ch").toList) (("hi").toList))
          (BanphraseReply.okJson false) 1 1 2).1 = some 1) ∧
      (firstIdxWhere SenderEvent.isSocketWrite
        (senderStep (CooldownTracker.mk [((("ch").toList), CooldownData.mk 0 0)])
          (History.mk [((("ch").toList), [])] 10)
          (PreparedMessage.mk (("ch").toList) (("hi").toList))
          (BanphraseReply.okJson false) 1 1 2).1 = some 2) ∧
      (1 : Nat) < 2 :=
  ⟨rfl, rfl, by decide⟩

/-- C9 (amended): in the sender loop, when the channel is tracked, the
banphrase API clears the message and the history reports it unseen
in-window (count 0), the unmodified body is pushed onto the channel's
history strictly BEFORE the serialized PRIVMSG is written to the socket
sink - the reverse of the claimed order - and both events occur. -/
theorem c9_push_ordering_amended (cooldowns : CooldownTracker Str) (history : History Str)
    (pm : PreparedMessage) (now1 now2 now3 : Nat) (d : CooldownData)
    (hd : findVal pm.channel cooldowns.cooldownMap = some d)
    (hh : (history.contains pm.channel pm.message now2).1 = some 0) :
    ∃ i j,
      firstIdxWhere SenderEvent.isHistoryPush
          (senderStep cooldowns history pm (BanphraseReply.okJson false) now1 now2 now3).1 =
        some i ∧
      firstIdxWhere SenderEvent.isSocketWrite
          (senderStep cooldowns history pm (BanphraseReply.okJson false) now1 now2 now3).1 =
        some j ∧
      i < j ∧
      (senderStep cooldowns history pm (BanphraseReply.okJson false) now1 now2 now3).2.2 =
        ((history.contains pm.channel pm.message now2).2).push pm.channel pm.message now2 := by
  rcases hc : history.contains pm.channel pm.message now2 with ⟨cnt, h1⟩
  rw [hc] at hh
  simp only at hh
  subst hh
  simp only [senderStep, hd, hc]
  rcases hcd : d.cooldown now1 with _ | howLong1 <;>
    simp only [hcd] <;>
    rcases htr : d.tryReset now3 with ⟨st, d2'⟩ <;>
    rcases st with _ | howLong3 <;>
    simp only [htr]
  · exact ⟨1, 2, by
      simp [firstIdxWhere, SenderEvent.isHistoryPush, SenderEvent.isSocketWrite], by
      simp [firstIdxWhere, SenderEvent.isHistoryPush, SenderEvent.isSocketWrite], by
      omega, by trivial⟩
  · exact ⟨1, 3, by
      simp [firstIdxWhere, SenderEvent.isHistoryPush, SenderEvent.isSocketWrite], by
      simp [firstIdxWhere, SenderEvent.isHistoryPush, SenderEvent.isSocketWrite], by
      omega, by trivial⟩
  · exact ⟨2, 3, by
      simp [firstIdxWhere, SenderEvent.isHistoryPush, SenderEvent.isSocketWrite], by
      simp [firstIdxWhere, SenderEvent.isHistoryPush, SenderEvent.isSocketWrite], by
      omega, by trivial⟩
  · exact ⟨2, 4, by
      simp [firstIdxWhere, SenderEvent.isHistoryPush, SenderEvent.isSocketWrite], by
      simp [firstIdxWhere, SenderEvent.isHistoryPush, SenderEvent.isSocketWrite], by
      omega, by trivial⟩

/-- C9 amended witness: a concrete tracked channel with an unseen
message. -/
theorem c9_push_ordering_amended_witness :
    ∃ i j,
      firstIdxWhere SenderEvent.isHistoryPush
          (senderStep (CooldownTracker.mk [((("ch").toList), CooldownData.mk 0 0)])
            (History.mk [((("ch").toList), [])] 10)
            (PreparedMessage.mk (("ch").toList) (("hi").toList))
            (BanphraseReply.okJson false) 1 1 2).1 =
        some i ∧
      firstIdxWhere SenderEvent.isSocketWrite
          (senderStep (CooldownTracker.mk [((("ch").toList), CooldownData.mk 0 0)])
            (History.mk [((("ch").toList), [])] 10)
            (PreparedMessage.mk (("ch").toList) (("hi").toList))
            (BanphraseReply.okJson false) 1 1 2).1 =
        some j ∧
      i < j ∧
      (senderStep (CooldownTracker.mk [((("ch").toList), CooldownData.mk 0 0)])
          (History.mk [((("ch").toList), [])] 10)
          (PreparedMessage.mk (("ch").toList) (("hi").toList))
          (BanphraseReply.okJson false) 1 1 2).2.2 =
        (((History.mk [((("ch").toList), [])] 10) : History Str).contains
            (("ch").toList) (("hi").toList) 1).2.push (("ch").toList) (("hi").toList) 1 :=
  c9_push_ordering_amended (CooldownTracker.mk [((("ch").toList), CooldownData.mk 0 0)])
    (History.mk [((("ch").toList), [])] 10)
    (PreparedMessage.mk (("ch").toList) (("hi").toList)) 1 1 2
    (CooldownData.mk 0 0) (by rfl) (by rfl)
